import Mathlib

/-!
Verification of the FEAPACK finite-element engine against its
natural-language specification.

This file shallowly embeds the parts of the Python source that the checked
claims concern:

* the isoparametric quadrature tables and extrapolation bases
  (`feapack/solver/isoparametric.py`);
* the model-database validator (`feapack/solver/validation.py`);
* the degree-of-freedom enumeration (`feapack/model/mdb.py`, `_buildDOFs`);
* the three analysis drivers (`feapack/solver/main.py`);
* the output database reader and writer (`feapack/model/odb.py`).

Python floats are modelled as exact rationals (`ℚ`) except where a square
root is computed, in which case real numbers (`ℝ`) are used.  Calls into
the external numerical backend (sparse solve, generalized eigensolver) are
modelled as oracle parameters whose contract appears as a hypothesis.
-/

namespace FEAPACK

/-- Element types available in the engine, from `feapack/model/elementTypes.py`. -/
inductive ElementTypes where
  | Line2
  | Line3
  | Plane3
  | Plane4
  | Plane6
  | Plane8
  | Volume4
  | Volume6
  | Volume8
  | Volume10
  | Volume15
  | Volume20
deriving DecidableEq, Fintype, Repr

namespace ElementTypes

/-- Number of element nodes, from `ElementTypes.nodeCount` in the source. -/
def nodeCount : ElementTypes → ℕ
  | .Line2 => 2
  | .Line3 => 3
  | .Plane3 => 3
  | .Plane4 => 4
  | .Plane6 => 6
  | .Plane8 => 8
  | .Volume4 => 4
  | .Volume6 => 6
  | .Volume8 => 8
  | .Volume10 => 10
  | .Volume15 => 15
  | .Volume20 => 20

end ElementTypes

/-- Section types, from `feapack/model/sectionTypes.py`. -/
inductive SectionTypes where
  | PlaneStress
  | PlaneStrain
  | Axisymmetric
  | General
deriving DecidableEq, Repr

/-- One quadrature-table row `(r, s, t, w)`: the natural coordinates of an
integration point together with its weight. -/
abbrev QuadRow : Type := ℚ × ℚ × ℚ × ℚ

/-- Quadrature rule from `integrationPoints` in `feapack/solver/isoparametric.py`.
The second argument is the owning section's reduced-integration flag
(`element.section.reducedIntegration`).  Each decimal literal of the source
is carried over verbatim as an exact rational. -/
def integrationPoints (t : ElementTypes) (reduced : Bool) : List QuadRow :=
  match t with
  | .Line2 =>
      if ¬reduced then
        [(-0.5773502691896258, 0.0, 0.0, 1.0),
         ( 0.5773502691896258, 0.0, 0.0, 1.0)]
      else
        [(0.0, 0.0, 0.0, 2.0)]
  | .Line3 =>
      if ¬reduced then
        [(-0.7745966692414834, 0.0, 0.0, 0.5555555555555556),
         ( 0.7745966692414834, 0.0, 0.0, 0.5555555555555556),
         ( 0.0000000000000000, 0.0, 0.0, 0.8888888888888889)]
      else
        [(-0.5773502691896258, 0.0, 0.0, 1.0),
         ( 0.5773502691896258, 0.0, 0.0, 1.0)]
  | .Plane3 =>
      [(0.3333333333333333, 0.3333333333333333, 0.0, 0.5)]
  | .Plane4 =>
      if ¬reduced then
        [(-0.5773502691896258, -0.5773502691896258, 0.0, 1.0),
         ( 0.5773502691896258, -0.5773502691896258, 0.0, 1.0),
         ( 0.5773502691896258,  0.5773502691896258, 0.0, 1.0),
         (-0.5773502691896258,  0.5773502691896258, 0.0, 1.0)]
      else
        [(0.0, 0.0, 0.0, 4.0)]
  | .Plane6 =>
      [(0.1666666666666667, 0.1666666666666667, 0.0, 0.1666666666666667),
       (0.6666666666666667, 0.1666666666666667, 0.0, 0.1666666666666667),
       (0.1666666666666667, 0.6666666666666667, 0.0, 0.1666666666666667)]
  | .Plane8 =>
      if ¬reduced then
        [(-0.7745966692414834, -0.7745966692414834, 0.0, 0.3086419753086420),
         ( 0.7745966692414834, -0.7745966692414834, 0.0, 0.3086419753086420),
         ( 0.7745966692414834,  0.7745966692414834, 0.0, 0.3086419753086420),
         (-0.7745966692414834,  0.7745966692414834, 0.0, 0.3086419753086420),
         ( 0.0000000000000000, -0.7745966692414834, 0.0, 0.4938271604938271),
         ( 0.7745966692414834,  0.0000000000000000, 0.0, 0.4938271604938271),
         ( 0.0000000000000000,  0.7745966692414834, 0.0, 0.4938271604938271),
         (-0.7745966692414834,  0.0000000000000000, 0.0, 0.4938271604938271),
         ( 0.0000000000000000,  0.0000000000000000, 0.0, 0.7901234567901234)]
      else
        [(-0.5773502691896258, -0.5773502691896258, 0.0, 1.0),
         ( 0.5773502691896258, -0.5773502691896258, 0.0, 1.0),
         ( 0.5773502691896258,  0.5773502691896258, 0.0, 1.0),
         (-0.5773502691896258,  0.5773502691896258, 0.0, 1.0)]
  | .Volume4 =>
      [(0.25, 0.25, 0.25, 0.1666666666666667)]
  | .Volume6 =>
      [(0.3333333333333333, 0.3333333333333333, -0.5773502691896258, 0.5),
       (0.3333333333333333, 0.3333333333333333,  0.5773502691896258, 0.5)]
  | .Volume8 =>
      if ¬reduced then
        [(-0.5773502691896258, -0.5773502691896258, -0.5773502691896258, 1.0),
         ( 0.5773502691896258, -0.5773502691896258, -0.5773502691896258, 1.0),
         ( 0.5773502691896258,  0.5773502691896258, -0.5773502691896258, 1.0),
         (-0.5773502691896258,  0.5773502691896258, -0.5773502691896258, 1.0),
         (-0.5773502691896258, -0.5773502691896258,  0.5773502691896258, 1.0),
         ( 0.5773502691896258, -0.5773502691896258,  0.5773502691896258, 1.0),
         ( 0.5773502691896258,  0.5773502691896258,  0.5773502691896258, 1.0),
         (-0.5773502691896258,  0.5773502691896258,  0.5773502691896258, 1.0)]
      else
        [(0.0, 0.0, 0.0, 8.0)]
  | .Volume10 =>
      [(0.1381966011250105, 0.1381966011250105, 0.1381966011250105, 0.0416666666666667),
       (0.5854101966249685, 0.1381966011250105, 0.1381966011250105, 0.0416666666666667),
       (0.1381966011250105, 0.5854101966249685, 0.1381966011250105, 0.0416666666666667),
       (0.1381966011250105, 0.1381966011250105, 0.5854101966249685, 0.0416666666666667)]
  | .Volume15 =>
      [(0.1666666666666667, 0.1666666666666667, -0.7745966692414834, 0.0925925925925926),
       (0.6666666666666667, 0.1666666666666667, -0.7745966692414834, 0.0925925925925926),
       (0.1666666666666667, 0.6666666666666667, -0.7745966692414834, 0.0925925925925926),
       (0.1666666666666667, 0.1666666666666667,  0.7745966692414834, 0.0925925925925926),
       (0.6666666666666667, 0.1666666666666667,  0.7745966692414834, 0.0925925925925926),
       (0.1666666666666667, 0.6666666666666667,  0.7745966692414834, 0.0925925925925926),
       (0.1666666666666667, 0.1666666666666667,  0.0000000000000000, 0.1481481481481481),
       (0.6666666666666667, 0.1666666666666667,  0.0000000000000000, 0.1481481481481481),
       (0.1666666666666667, 0.6666666666666667,  0.0000000000000000, 0.1481481481481481)]
  | .Volume20 =>
      if ¬reduced then
        [(-0.7745966692414834, -0.7745966692414834, -0.7745966692414834, 0.1714677640603567),
         ( 0.7745966692414834, -0.7745966692414834, -0.7745966692414834, 0.1714677640603567),
         ( 0.7745966692414834,  0.7745966692414834, -0.7745966692414834, 0.1714677640603567),
         (-0.7745966692414834,  0.7745966692414834, -0.7745966692414834, 0.1714677640603567),
         (-0.7745966692414834, -0.7745966692414834,  0.7745966692414834, 0.1714677640603567),
         ( 0.7745966692414834, -0.7745966692414834,  0.7745966692414834, 0.1714677640603567),
         ( 0.7745966692414834,  0.7745966692414834,  0.7745966692414834, 0.1714677640603567),
         (-0.7745966692414834,  0.7745966692414834,  0.7745966692414834, 0.1714677640603567),
         ( 0.0000000000000000, -0.7745966692414834, -0.7745966692414834, 0.2743484224965706),
         ( 0.7745966692414834,  0.0000000000000000, -0.7745966692414834, 0.2743484224965706),
         ( 0.0000000000000000,  0.7745966692414834, -0.7745966692414834, 0.2743484224965706),
         (-0.7745966692414834,  0.0000000000000000, -0.7745966692414834, 0.2743484224965706),
         ( 0.0000000000000000, -0.7745966692414834,  0.7745966692414834, 0.2743484224965706),
         ( 0.7745966692414834,  0.0000000000000000,  0.7745966692414834, 0.2743484224965706),
         ( 0.0000000000000000,  0.7745966692414834,  0.7745966692414834, 0.2743484224965706),
         (-0.7745966692414834,  0.0000000000000000,  0.7745966692414834, 0.2743484224965706),
         (-0.7745966692414834, -0.7745966692414834,  0.0000000000000000, 0.2743484224965706),
         ( 0.7745966692414834, -0.7745966692414834,  0.0000000000000000, 0.2743484224965706),
         ( 0.7745966692414834,  0.7745966692414834,  0.0000000000000000, 0.2743484224965706),
         (-0.7745966692414834,  0.7745966692414834,  0.0000000000000000, 0.2743484224965706),
         ( 0.0000000000000000, -0.7745966692414834,  0.0000000000000000, 0.4389574759945130),
         ( 0.7745966692414834,  0.0000000000000000,  0.0000000000000000, 0.4389574759945130),
         ( 0.0000000000000000,  0.7745966692414834,  0.0000000000000000, 0.4389574759945130),
         (-0.7745966692414834,  0.0000000000000000,  0.0000000000000000, 0.4389574759945130),
         ( 0.0000000000000000,  0.0000000000000000, -0.7745966692414834, 0.4389574759945130),
         ( 0.0000000000000000,  0.0000000000000000,  0.7745966692414834, 0.4389574759945130),
         ( 0.0000000000000000,  0.0000000000000000,  0.0000000000000000, 0.7023319615912208)]
      else
        [(-0.5773502691896258, -0.5773502691896258, -0.5773502691896258, 1.0),
         ( 0.5773502691896258, -0.5773502691896258, -0.5773502691896258, 1.0),
         ( 0.5773502691896258,  0.5773502691896258, -0.5773502691896258, 1.0),
         (-0.5773502691896258,  0.5773502691896258, -0.5773502691896258, 1.0),
         (-0.5773502691896258, -0.5773502691896258,  0.5773502691896258, 1.0),
         ( 0.5773502691896258, -0.5773502691896258,  0.5773502691896258, 1.0),
         ( 0.5773502691896258,  0.5773502691896258,  0.5773502691896258, 1.0),
         (-0.5773502691896258,  0.5773502691896258,  0.5773502691896258, 1.0)]

/-- Extrapolation technique labels, from the string literals returned by
`extrapolationApproach` in `feapack/solver/isoparametric.py`. -/
inductive Approach where
  | constant
  | linearInR
  | linearInT
  | bilinearInRS
  | trilinearInRST
deriving DecidableEq, Repr

/-- The extrapolation technique per element type, from `extrapolationApproach`
in `feapack/solver/isoparametric.py`.  The second argument is the section's
reduced-integration flag. -/
def extrapolationApproach (t : ElementTypes) (reduced : Bool) : Approach :=
  match t with
  | .Line2 => if ¬reduced then .linearInR else .constant
  | .Line3 => .linearInR
  | .Plane3 => .constant
  | .Plane4 => if ¬reduced then .bilinearInRS else .constant
  | .Plane6 => .bilinearInRS
  | .Plane8 => .bilinearInRS
  | .Volume4 => .constant
  | .Volume6 => .linearInT
  | .Volume8 => if ¬reduced then .trilinearInRST else .constant
  | .Volume10 => .trilinearInRST
  | .Volume15 => .trilinearInRST
  | .Volume20 => .trilinearInRST

/-- Dimension of the extrapolation basis: the number of columns of the
least-squares matrix `A` built in `extrapolateWithinElement`
(`feapack/solver/procedures.py`): `{1}`, `{1,r}`, `{1,t}`, `{1,r,s,rs}`,
or `{1,r,s,t,rs,st,tr,rst}`. -/
def extrapolationBasisSize : Approach → ℕ
  | .constant => 1
  | .linearInR => 2
  | .linearInT => 2
  | .bilinearInRS => 4
  | .trilinearInRST => 8

/-- Material record, from `feapack/model/material.py`: Young's modulus,
Poisson's ratio and mass density. -/
structure Material where
  young : ℚ
  poisson : ℚ
  density : ℚ
deriving DecidableEq, Repr

/-- Error messages produced by the mass-density loop of
`_checkFrequencyAnalysis` in `feapack/solver/validation.py`: the source walks
`mdb.materials.values()` and appends one error, then breaks, on the first
material whose `density == 0.0`.  This is equivalent to appending the message
iff some material has density exactly zero. -/
def checkFrequencyAnalysisDensityErrors (materials : List Material) : List String :=
  if materials.any (fun m => m.density = 0) then
    ["the mass density must be specified for a frequency analysis"]
  else []

/-! ### Output database, from `feapack/model/odb.py`.

The ODB file is a line-oriented text file.  It is modelled as a list of
lines, each line a list of characters (without its trailing newline), and
file offsets as line indices: every write in the source emits whole lines,
and the reader only ever seeks to positions recorded immediately after a
`readline`.  Python's `str`/`int`/`float` formatting of numbers is external
runtime behaviour; it is modelled by an abstract codec whose round-trip
contract appears as a hypothesis. -/

namespace ODBM

/-- One line of an ODB file. -/
abbrev Line : Type := List Char

/-- Python `str.strip`: drop leading and trailing whitespace. -/
def trim (l : Line) : Line :=
  (((l.dropWhile Char.isWhitespace).reverse).dropWhile Char.isWhitespace).reverse

/-- Python `line.startswith("$")`. -/
def startsWithDollar (l : Line) : Bool :=
  match l with
  | [] => false
  | ch :: _ => ch = '$'

/-- Python `str.split(sep)` for a one-character separator (all occurrences,
no maxsplit); `"".split(sep) = [""]`. -/
def splitOnChar (sep : Char) : Line → List Line
  | [] => [[]]
  | ch :: rest =>
    if ch = sep then [] :: splitOnChar sep rest
    else
      match splitOnChar sep rest with
      | [] => [[ch]]
      | p :: ps => (ch :: p) :: ps

/-- Python `", ".join(...)`. -/
def commaJoin : List Line → Line
  | [] => []
  | [t] => t
  | t :: ts => t ++ ',' :: ' ' :: commaJoin ts

theorem splitOnChar_ne_nil (sep : Char) (l : Line) : splitOnChar sep l ≠ [] := by
  induction l with
  | nil => simp [splitOnChar]
  | cons ch rest ih =>
      by_cases h : ch = sep
      · simp [splitOnChar, h]
      · simp only [splitOnChar, if_neg h]
        cases hs : splitOnChar sep rest with
        | nil => simp
        | cons p ps => simp

theorem splitOnChar_of_not_mem (sep : Char) (l : Line) (h : sep ∉ l) :
    splitOnChar sep l = [l] := by
  induction l with
  | nil => rfl
  | cons ch rest ih =>
      have hch : ¬ ch = sep := fun he => h (he ▸ List.mem_cons_self ch rest)
      have hrest : sep ∉ rest := fun hm => h (List.mem_cons_of_mem ch hm)
      simp only [splitOnChar, if_neg hch, ih hrest]

theorem splitOnChar_append_cons (sep : Char) (A B : Line) (h : sep ∉ A) :
    splitOnChar sep (A ++ sep :: B) = A :: splitOnChar sep B := by
  induction A with
  | nil => simp [splitOnChar]
  | cons ch rest ih =>
      have hch : ¬ ch = sep := fun he => h (he ▸ List.mem_cons_self ch rest)
      have hrest : sep ∉ rest := fun hm => h (List.mem_cons_of_mem ch hm)
      have ihh := ih hrest
      simp only [List.cons_append, splitOnChar, if_neg hch]
      rw [show rest.append (sep :: B) = rest ++ sep :: B from rfl, ihh]

theorem splitOnChar_cons_of_ne (sep ch : Char) (l : Line) (h : ¬ ch = sep) :
    splitOnChar sep (ch :: l)
      = (ch :: (splitOnChar sep l).headI) :: (splitOnChar sep l).tail := by
  simp only [splitOnChar, if_neg h]
  cases hs : splitOnChar sep l with
  | nil => exact absurd hs (splitOnChar_ne_nil sep l)
  | cons p ps => simp

theorem splitOnChar_commaJoin (t : Line) (ts : List Line)
    (h : ∀ x ∈ t :: ts, ',' ∉ x) :
    splitOnChar ',' (commaJoin (t :: ts)) = t :: ts.map (fun x => ' ' :: x) := by
  induction ts generalizing t with
  | nil =>
      rw [show commaJoin [t] = t from rfl,
        splitOnChar_of_not_mem ',' t (h t (List.mem_cons_self t []))]
      rfl
  | cons t' ts ih =>
      have hjoin : commaJoin (t :: t' :: ts) = t ++ ',' :: (' ' :: commaJoin (t' :: ts)) := rfl
      rw [hjoin, splitOnChar_append_cons ',' t _ (h t (List.mem_cons_self t _))]
      have hsplit : splitOnChar ',' (' ' :: commaJoin (t' :: ts))
          = (' ' :: (splitOnChar ',' (commaJoin (t' :: ts))).headI) ::
              (splitOnChar ',' (commaJoin (t' :: ts))).tail := by
        exact splitOnChar_cons_of_ne ',' ' ' _ (by decide)
      rw [hsplit, ih t' (fun x hx => h x (List.mem_cons_of_mem t hx))]
      simp

/-- A token is plain when it is nonempty and contains no whitespace, comma
or dollar character: this is true of Python's formatting of ints and
floats. -/
def plainToken (l : Line) : Prop :=
  l ≠ [] ∧ ∀ ch ∈ l, ch.isWhitespace = false ∧ ch ≠ ',' ∧ ch ≠ '$'

theorem dropWhile_isWS_eq_self (l : Line)
    (h : ∀ ch, l.head? = some ch → ch.isWhitespace = false) :
    l.dropWhile Char.isWhitespace = l := by
  cases l with
  | nil => rfl
  | cons ch rest =>
      have := h ch rfl
      simp [List.dropWhile_cons, this]

theorem trim_eq_self (l : Line)
    (h1 : ∀ ch, l.head? = some ch → ch.isWhitespace = false)
    (h2 : ∀ ch, l.reverse.head? = some ch → ch.isWhitespace = false) :
    trim l = l := by
  unfold trim
  rw [dropWhile_isWS_eq_self l h1, dropWhile_isWS_eq_self l.reverse h2,
    List.reverse_reverse]

theorem trim_eq_self_of_plain (l : Line) (h : plainToken l) : trim l = l := by
  refine trim_eq_self l ?_ ?_
  · intro ch hch
    exact (h.2 ch (by cases l with
      | nil => simp at hch
      | cons x xs => simp at hch; exact hch ▸ List.mem_cons_self x xs)).1
  · intro ch hch
    have : ch ∈ l.reverse := by
      cases hr : l.reverse with
      | nil => rw [hr] at hch; simp at hch
      | cons x xs =>
          rw [hr] at hch
          simp at hch
          exact hch ▸ (hr ▸ List.mem_cons_self x xs)
    exact (h.2 ch (List.mem_reverse.mp this)).1

theorem trim_cons_ws (ch : Char) (l : Line) (h : ch.isWhitespace = true) :
    trim (ch :: l) = trim l := by
  unfold trim
  simp [List.dropWhile_cons, h]

theorem takeWhile_append_space (A tok : Line) (h : ∀ ch ∈ A, ch ≠ ' ') :
    (A ++ ' ' :: tok).takeWhile (fun ch => ch ≠ ' ') = A := by
  induction A with
  | nil => simp [List.takeWhile_cons]
  | cons ch rest ih =>
      have hch : (ch ≠ ' ') = True := by
        simp [h ch (List.mem_cons_self ch rest)]
      simp only [List.cons_append, List.takeWhile_cons]
      rw [ih (fun x hx => h x (List.mem_cons_of_mem ch hx))]
      simp [h ch (List.mem_cons_self ch rest)]

/-- The number formatting and parsing of the Python runtime (`str` on ints
and floats, `int(...)`, `float(...)`), abstracted: `fmtQ`/`parseQ` model the
float path and `fmtI`/`parseI` the int path.  The round-trip and
plain-token contracts appear as theorem hypotheses (`CodecOK`). -/
structure Codec where
  fmtQ : ℚ → Line
  parseQ : Line → Option ℚ
  fmtI : ℤ → Line
  parseI : Line → Option ℤ

/-- Contract of the Python number formatting: formatted numbers parse back
exactly and consist of plain characters.  (Python's `repr`/`float` round
trip is exact, which is stronger than the 12-significant-digit guarantee of
the specification.) -/
structure CodecOK (c : Codec) : Prop where
  fmtQ_plain : ∀ q, plainToken (c.fmtQ q)
  parseQ_fmtQ : ∀ q, c.parseQ (c.fmtQ q) = some q
  fmtI_plain : ∀ z, plainToken (c.fmtI z)
  parseI_fmtI : ∀ z, c.parseI (c.fmtI z) = some z

/-- The mesh snapshot written to a frame: nodal coordinates and element
types with 0-based connectivity (`mesh.nodes`, `mesh.elements`). -/
structure MeshData where
  nodes : List (ℚ × ℚ × ℚ)
  elements : List (ElementTypes × List ℕ)

/-- The data of one output frame as passed to `ODB.writeNextFrame`:
description, mesh, ordered node-output map and ordered global-output map. -/
structure FrameData where
  description : Line
  mesh : MeshData
  nodeOutput : List (Line × List ℚ)
  globalOutput : List (Line × ℚ)

/-- `ElementTypes.name` (the Python enum member name). -/
def typeName : ElementTypes → Line
  | .Line2 => "Line2".toList
  | .Line3 => "Line3".toList
  | .Plane3 => "Plane3".toList
  | .Plane4 => "Plane4".toList
  | .Plane6 => "Plane6".toList
  | .Plane8 => "Plane8".toList
  | .Volume4 => "Volume4".toList
  | .Volume6 => "Volume6".toList
  | .Volume8 => "Volume8".toList
  | .Volume10 => "Volume10".toList
  | .Volume15 => "Volume15".toList
  | .Volume20 => "Volume20".toList

/-- Python `ElementTypes[name]`: enum lookup by member name; a missing name
raises (`none`). -/
def elemTypeOfName (l : Line) : Option ElementTypes :=
  if l = "Line2".toList then some .Line2
  else if l = "Line3".toList then some .Line3
  else if l = "Plane3".toList then some .Plane3
  else if l = "Plane4".toList then some .Plane4
  else if l = "Plane6".toList then some .Plane6
  else if l = "Plane8".toList then some .Plane8
  else if l = "Volume4".toList then some .Volume4
  else if l = "Volume6".toList then some .Volume6
  else if l = "Volume8".toList then some .Volume8
  else if l = "Volume10".toList then some .Volume10
  else if l = "Volume15".toList then some .Volume15
  else if l = "Volume20".toList then some .Volume20
  else none

theorem elemTypeOfName_typeName (t : ElementTypes) :
    elemTypeOfName (typeName t) = some t := by
  cases t <;> rfl

/-- Length of `zip(*lists)`: the minimum of the list lengths, and zero for
no lists at all. -/
def minLen : List (List ℚ) → ℕ
  | [] => 0
  | l :: ls => ls.foldl (fun acc x => min acc x.length) l.length

/-- Python `zip(*lists)`: the `r`-th row collects the `r`-th entry of every
list, truncating at the shortest list. -/
def zipRows (ls : List (List ℚ)) : List (List ℚ) :=
  (List.range (minLen ls)).map (fun r => ls.map (fun l => l.getD r 0))

def kwFRAME : Line := "$FRAME".toList
def kwENDFRAME : Line := "$END_FRAME".toList
def kwDESCRIPTION : Line := "$DESCRIPTION".toList
def kwNODES : Line := "$NODES".toList
def kwELEMENTS : Line := "$ELEMENTS".toList
def kwNodeOutputTitles : Line := "$NODE_OUTPUT_TITLES".toList
def kwNodeOutputValues : Line := "$NODE_OUTPUT_VALUES".toList
def kwGlobalOutputTitles : Line := "$GLOBAL_OUTPUT_TITLES".toList
def kwGlobalOutputValues : Line := "$GLOBAL_OUTPUT_VALUES".toList

/-- A `$KEYWORD count` command line. -/
def countLine (kw : Line) (c : Codec) (n : ℕ) : Line := kw ++ ' ' :: c.fmtI (n : ℤ)

/-- A nodal-coordinate line, `f"{node.x}, {node.y}, {node.z}"`. -/
def nodeLine (c : Codec) (p : ℚ × ℚ × ℚ) : Line :=
  commaJoin [c.fmtQ p.1, c.fmtQ p.2.1, c.fmtQ p.2.2]

/-- An element line, `f"{element.type.name}, {", ".join(...)}"`. -/
def elemLine (c : Codec) (e : ElementTypes × List ℕ) : Line :=
  typeName e.1 ++ ',' :: ' ' :: commaJoin (e.2.map (fun n => c.fmtI (n : ℤ)))

/-- One section of a frame block: a command line, its payload lines, one
blank line. -/
def sectionLines (cmd : Line) (payload : List Line) : List Line :=
  cmd :: (payload ++ [[]])

/-- The exact sequence of lines appended by one `ODB.writeNextFrame` call,
with `idx` the frame index written after the counters are incremented:
`$FRAME` with its index, then the description, nodes, elements, node-output
titles, node-output value rows, global-output titles and global-output
value sections, and `$END_FRAME`, each followed by a blank line. -/
def frameLines (c : Codec) (idx : ℤ) (fr : FrameData) : List Line :=
  kwFRAME :: c.fmtI idx :: ([] : Line) ::
  (sectionLines kwDESCRIPTION [fr.description] ++
  (sectionLines (countLine kwNODES c fr.mesh.nodes.length)
      (fr.mesh.nodes.map (nodeLine c)) ++
  (sectionLines (countLine kwELEMENTS c fr.mesh.elements.length)
      (fr.mesh.elements.map (elemLine c)) ++
  (sectionLines (countLine kwNodeOutputTitles c fr.nodeOutput.length)
      (fr.nodeOutput.map (fun x => x.1)) ++
  (sectionLines (countLine kwNodeOutputValues c
        (if 0 < fr.nodeOutput.length then fr.mesh.nodes.length else 0))
      ((zipRows (fr.nodeOutput.map (fun x => x.2))).map
        (fun row => commaJoin (row.map c.fmtQ))) ++
  (sectionLines (countLine kwGlobalOutputTitles c fr.globalOutput.length)
      (fr.globalOutput.map (fun x => x.1)) ++
  (sectionLines (countLine kwGlobalOutputValues c fr.globalOutput.length)
      (fr.globalOutput.map (fun x => c.fmtQ x.2)) ++
  [kwENDFRAME, []])))))))

/-- The per-frame pointer dictionary built at open: command keyword ↦
(stripped command line, position just after it). -/
abbrev Dict : Type := Line → Option (Line × ℕ)

/-- Python `self._linePointers[f][key] = v`. -/
def updateP (P : ℕ → Dict) (f : ℕ) (key : Line) (v : Line × ℕ) : ℕ → Dict :=
  fun g => if g = f then (fun k => if k = key then some v else P f k) else P g

/-- The ODB object state: file contents (a list of lines), frame counter,
current frame, and the pointer dictionaries built in read mode. -/
structure ODB where
  file : List Line
  frameCount : ℕ
  currentFrame : ℤ
  pointers : ℕ → Dict

/-- `ODB.__init__` in write mode: with `replace` the existing file is
removed and a fresh empty one created; otherwise an existing file is kept
(or an empty one created).  Counters start at `0` and `−1` and no pointer
index is built. -/
def ODB.openWrite (existing : Option (List Line)) (replace : Bool) : ODB where
  file := if replace then [] else existing.getD []
  frameCount := 0
  currentFrame := -1
  pointers := fun _ _ => none

/-- `ODB.writeNextFrame`: increment both counters, then append the frame
block, whose recorded index is the incremented `currentFrame`. -/
def ODB.writeNextFrame (c : Codec) (o : ODB) (fr : FrameData) : ODB where
  file := o.file ++ frameLines c (o.currentFrame + 1) fr
  frameCount := o.frameCount + 1
  currentFrame := o.currentFrame + 1
  pointers := o.pointers

/-- The frame-counting pass of `ODB.__init__` in read mode: the number of
lines that strip to `$FRAME`. -/
def countFrames (file : List Line) : ℕ :=
  (file.filter (fun l => trim l = kwFRAME)).length

/-- The pointer-building pass of `ODB.__init__` in read mode.  `pos` is the
index of the next line to read, `cur` the frame whose dictionary is being
filled (`d` in the source, `none` between `$END_FRAME` and `$FRAME`), `n`
the frame count (for the index bounds of `self._linePointers[frame]`,
including Python's negative-index wrap-around).  `none` models the
exceptions raised on a malformed file (`int` failure or an out-of-range
frame index). -/
def scan (c : Codec) (n : ℕ) : List Line → ℕ → Option ℕ → (ℕ → Dict) →
    Option (ℕ → Dict)
  | [], _, _, P => some P
  | line :: rest, pos, cur, P =>
    if startsWithDollar line = false then scan c n rest (pos + 1) cur P
    else
      let l := trim line
      if l = kwFRAME then
        match rest with
        | [] => none
        | idxLine :: rest' =>
          match c.parseI (trim idxLine) with
          | none => none
          | some frame =>
            let f : ℤ := if frame < 0 then (n : ℤ) + frame else frame
            if 0 ≤ f ∧ f < (n : ℤ) then scan c n rest' (pos + 2) (some f.toNat) P
            else none
      else if l = kwENDFRAME then scan c n rest (pos + 1) none P
      else
        match cur with
        | some fr =>
            scan c n rest (pos + 1) cur
              (updateP P fr (l.takeWhile (fun ch => ch ≠ ' ')) (l, pos + 1))
        | none => scan c n rest (pos + 1) cur P

/-- `ODB.__init__` in read mode: count frames (`none` models
`MissingFrameError` when there are none), build the pointer index, point at
the last frame. -/
def ODB.openRead (c : Codec) (file : List Line) : Option ODB :=
  let n := countFrames file
  if n = 0 then none
  else
    match scan c n file 0 none (fun _ _ => none) with
    | none => none
    | some P => some ⟨file, n, (n : ℤ) - 1, P⟩

/-- `file.readline()` after seeking to line index `pos`; reading past the
end returns the empty line. -/
def getLine (file : List Line) (pos : ℕ) : Line := (file.get? pos).getD []

/-- `count` successive `readline` calls starting at line index `pos`. -/
def takeLines (file : List Line) (pos count : ℕ) : List Line :=
  (List.range count).map (fun r => getLine file (pos + r))

/-- `int(line.split(" ")[1])` on a stored command line. -/
def parseCount (c : Codec) (l : Line) : Option ℤ :=
  match (splitOnChar ' ' l).get? 1 with
  | none => none
  | some piece => c.parseI (trim piece)

/-- One line of `ODB.getDescription`-style payload parsing for `getNodes`:
split on commas, parse the first three fields as floats. -/
def parseNodeLine (c : Codec) (l : Line) : Option (ℚ × ℚ × ℚ) :=
  let pieces := splitOnChar ',' l
  match pieces.get? 0, pieces.get? 1, pieces.get? 2 with
  | some a, some b, some d =>
    match c.parseQ (trim a), c.parseQ (trim b), c.parseQ (trim d) with
    | some x, some y, some z => some (x, y, z)
    | _, _, _ => none
  | _, _, _ => none

/-- One line of `ODB.getElements` parsing: `line.split(",", maxsplit=1)`
into a type name and the connectivity, `ElementTypes[type]`, then `int`
on each connectivity field. -/
def parseElemLine (c : Codec) (l : Line) : Option (ElementTypes × List ℤ) :=
  if (l.filter (fun ch => ch = ',')).length = 0 then none
  else
    let ty := l.takeWhile (fun ch => ch ≠ ',')
    let rest := (l.dropWhile (fun ch => ch ≠ ',')).drop 1
    match elemTypeOfName ty with
    | none => none
    | some t =>
      ((splitOnChar ',' rest).mapM (fun piece => c.parseI (trim piece))).map
        (fun conn => (t, conn))

/-- `ODB.getDescription`: seek to the recorded pointer, read one line,
strip it. -/
def ODB.getDescription (o : ODB) : Option Line :=
  (o.pointers o.currentFrame.toNat kwDESCRIPTION).map
    (fun pr => trim (getLine o.file pr.2))

/-- `ODB.getNodes`. -/
def ODB.getNodes (c : Codec) (o : ODB) : Option (List (ℚ × ℚ × ℚ)) := do
  let pr ← o.pointers o.currentFrame.toNat kwNODES
  let cnt ← parseCount c pr.1
  (takeLines o.file pr.2 cnt.toNat).mapM (parseNodeLine c)

/-- `ODB.getElements`. -/
def ODB.getElements (c : Codec) (o : ODB) : Option (List (ElementTypes × List ℤ)) := do
  let pr ← o.pointers o.currentFrame.toNat kwELEMENTS
  let cnt ← parseCount c pr.1
  (takeLines o.file pr.2 cnt.toNat).mapM (parseElemLine c)

/-- `ODB.getNodeOutputTitles`. -/
def ODB.getNodeOutputTitles (c : Codec) (o : ODB) : Option (List Line) := do
  let pr ← o.pointers o.currentFrame.toNat kwNodeOutputTitles
  let cnt ← parseCount c pr.1
  pure ((takeLines o.file pr.2 cnt.toNat).map trim)

/-- `ODB.getGlobalOutputTitles`. -/
def ODB.getGlobalOutputTitles (c : Codec) (o : ODB) : Option (List Line) := do
  let pr ← o.pointers o.currentFrame.toNat kwGlobalOutputTitles
  let cnt ← parseCount c pr.1
  pure ((takeLines o.file pr.2 cnt.toNat).map trim)

/-- `ODB.getNodeOutputValues(title)`: locate the title's column, then for
each of the recorded number of rows take the column's comma-separated field
and parse it as a float. -/
def ODB.getNodeOutputValues (c : Codec) (o : ODB) (title : Line) :
    Option (List ℚ) := do
  let titles ← o.getNodeOutputTitles c
  let idx ← titles.findIdx? (fun t => t = title)
  let pr ← o.pointers o.currentFrame.toNat kwNodeOutputValues
  let cnt ← parseCount c pr.1
  (takeLines o.file pr.2 cnt.toNat).mapM
    (fun row => ((splitOnChar ',' row).get? idx).bind (fun piece => c.parseQ (trim piece)))

/-- `ODB.getGlobalOutputValues(title)`: locate the title's index and read
that scalar line.  The source returns `float("nan")` when the index is past
the recorded count; as `ℚ` has no NaN this is modelled as `none`. -/
def ODB.getGlobalOutputValues (c : Codec) (o : ODB) (title : Line) : Option ℚ := do
  let titles ← o.getGlobalOutputTitles c
  let idx ← titles.findIdx? (fun t => t = title)
  let pr ← o.pointers o.currentFrame.toNat kwGlobalOutputValues
  let cnt ← parseCount c pr.1
  if idx < cnt.toNat then c.parseQ (trim (getLine o.file (pr.2 + idx))) else none

/-- `ODB.goToFirstFrame`. -/
def ODB.goToFirstFrame (o : ODB) : ODB := { o with currentFrame := 0 }

/-- `ODB.goToPreviousFrame`: silently keeps the state on the first frame. -/
def ODB.goToPreviousFrame (o : ODB) : ODB :=
  if o.currentFrame = 0 then o else { o with currentFrame := o.currentFrame - 1 }

/-- `ODB.goToNextFrame`: silently keeps the state on the last frame. -/
def ODB.goToNextFrame (o : ODB) : ODB :=
  if o.currentFrame = (o.frameCount : ℤ) - 1 then o
  else { o with currentFrame := o.currentFrame + 1 }

/-- `ODB.goToLastFrame`. -/
def ODB.goToLastFrame (o : ODB) : ODB :=
  { o with currentFrame := (o.frameCount : ℤ) - 1 }

/-- `ODB.goToFrame`: raises (`none`) iff the index is out of range, and
otherwise moves the current frame to the requested index. -/
def ODB.goToFrame (o : ODB) (frame : ℤ) : Option ODB :=
  if frame < 0 ∨ frame ≥ (o.frameCount : ℤ) then none
  else some { o with currentFrame := frame }

/-- A payload string (description or output title) that survives the text
round trip: it equals its own strip, does not start with the command marker
`$`, and contains no newline (one list entry is one file line). -/
def cleanText (l : Line) : Prop :=
  trim l = l ∧ startsWithDollar l = false ∧ Char.ofNat 10 ∉ l

/-- The conditions under which a written frame is recovered exactly: clean
description and titles, one node-output value per mesh node, distinct
titles within each map (automatic for the Python dicts of the source), and
nonempty element connectivity. -/
def FrameClean (fr : FrameData) : Prop :=
  cleanText fr.description ∧
  (∀ x ∈ fr.nodeOutput, cleanText x.1 ∧ x.2.length = fr.mesh.nodes.length) ∧
  (∀ x ∈ fr.globalOutput, cleanText x.1) ∧
  (fr.nodeOutput.map (fun x => x.1)).Nodup ∧
  (fr.globalOutput.map (fun x => x.1)).Nodup ∧
  (∀ e ∈ fr.mesh.elements, e.2 ≠ [])

theorem startsWithDollar_append (A B : Line) (hA : A ≠ []) :
    startsWithDollar (A ++ B) = startsWithDollar A := by
  cases A with
  | nil => exact absurd rfl hA
  | cons ch rest => rfl

theorem startsWithDollar_of_plain (l : Line) (h : plainToken l) :
    startsWithDollar l = false := by
  cases l with
  | nil => rfl
  | cons ch rest =>
      have := (h.2 ch (List.mem_cons_self ch rest)).2.2
      simp [startsWithDollar, this]

theorem head?_append_of_ne_nil (A B : Line) (hA : A ≠ []) :
    (A ++ B).head? = A.head? := by
  cases A with
  | nil => exact absurd rfl hA
  | cons ch rest => rfl

theorem plainToken_ne_nil (l : Line) (h : plainToken l) : l ≠ [] := h.1

/-- A `$KEYWORD count` line, with a plain keyword starting with `$` and a
plain count token, equals its own strip. -/
theorem trim_countLine (c : Codec) (kw : Line) (m : ℕ)
    (hkw : ∃ ch rest, kw = ch :: rest ∧ ch.isWhitespace = false)
    (htok : plainToken (c.fmtI (m : ℤ))) :
    trim (countLine kw c m) = countLine kw c m := by
  obtain ⟨ch, rest, hkweq, hchw⟩ := hkw
  refine trim_eq_self _ ?_ ?_
  · intro x hx
    rw [countLine, hkweq] at hx
    simp at hx
    rw [← hx]
    exact hchw
  · intro x hx
    rw [countLine, List.reverse_append] at hx
    have htokne : c.fmtI (m : ℤ) ≠ [] := htok.1
    have hrevne : (' ' :: c.fmtI (m : ℤ)).reverse ≠ [] := by simp
    rw [head?_append_of_ne_nil _ _ hrevne] at hx
    have : x ∈ (' ' :: c.fmtI (m : ℤ)).reverse := by
      cases hr : (' ' :: c.fmtI (m : ℤ)).reverse with
      | nil => exact absurd hr hrevne
      | cons y ys =>
          rw [hr] at hx
          simp at hx
          exact hx ▸ (hr ▸ List.mem_cons_self y ys)
    rw [List.mem_reverse] at this
    rcases List.mem_cons.mp this with hsp | hmem
    · exfalso
      have hlast : (' ' :: c.fmtI (m : ℤ)).reverse.head? = some x := hx
      cases htokm : c.fmtI (m : ℤ) with
      | nil => exact htokne htokm
      | cons t ts =>
          rw [htokm] at hlast
          have : (t :: ts).reverse ≠ [] := by simp
          rw [show (' ' :: t :: ts).reverse = (t :: ts).reverse ++ [' '] by simp,
            head?_append_of_ne_nil _ _ this] at hlast
          have hxmem : x ∈ (t :: ts).reverse := by
            cases hr : (t :: ts).reverse with
            | nil => exact absurd hr this
            | cons y ys =>
                rw [hr] at hlast
                simp at hlast
                exact hlast ▸ (hr ▸ List.mem_cons_self y ys)
          have hxtok : x ∈ c.fmtI (m : ℤ) := htokm ▸ List.mem_reverse.mp hxmem
          have := (htok.2 x hxtok).1
          rw [hsp] at this
          exact absurd this (by decide)
    · exact (htok.2 x hmem).1

/-- The command token of a `$KEYWORD count` line is the keyword. -/
theorem takeWhile_countLine (c : Codec) (kw : Line) (m : ℕ)
    (hkw : ∀ ch ∈ kw, ch ≠ ' ') (htok : plainToken (c.fmtI (m : ℤ))) :
    (countLine kw c m).takeWhile (fun ch => ch ≠ ' ') = kw :=
  takeWhile_append_space kw _ hkw

theorem countLine_ne_of_get (c : Codec) (kw tgt : Line) (m : ℕ) (i : ℕ)
    (hi : i < kw.length) (hne : kw.get? i ≠ tgt.get? i) :
    countLine kw c m ≠ tgt := by
  intro he
  apply hne
  rw [← he, countLine, List.get?_eq_getElem?, List.get?_eq_getElem?,
    List.getElem?_append_left hi]

/-- Stepping lemma: the scan skips a run of lines that do not start with
`$`, advancing the position. -/
theorem scan_skip (c : Codec) (n : ℕ) (ls : List Line)
    (h : ∀ l ∈ ls, startsWithDollar l = false) :
    ∀ (rest : List Line) (pos : ℕ) (cur : Option ℕ) (P : ℕ → Dict),
      scan c n (ls ++ rest) pos cur P = scan c n rest (pos + ls.length) cur P := by
  induction ls with
  | nil => intro rest pos cur P; simp
  | cons l ls ih =>
      intro rest pos cur P
      have hl := h l (List.mem_cons_self l ls)
      rw [List.cons_append, scan.eq_def]
      simp only [hl, if_pos rfl]
      rw [ih (fun x hx => h x (List.mem_cons_of_mem l hx)) rest (pos + 1) cur P]
      have : pos + 1 + ls.length = pos + (l :: ls).length := by
        simp
        omega
      rw [this]
      simp

/-- Stepping lemma: a command line inside a frame records its token in that
frame's dictionary with the position just after the line. -/
theorem scan_command (c : Codec) (n : ℕ) (line : Line) (rest : List Line)
    (pos : ℕ) (f : ℕ) (P : ℕ → Dict)
    (hd : startsWithDollar line = true)
    (ht : trim line = line)
    (hne1 : line ≠ kwFRAME) (hne2 : line ≠ kwENDFRAME) :
    scan c n (line :: rest) pos (some f) P
      = scan c n rest (pos + 1) (some f)
          (updateP P f (line.takeWhile (fun ch => ch ≠ ' ')) (line, pos + 1)) := by
  rw [scan.eq_def]
  simp [hd, ht, hne1, hne2]

/-- Stepping lemma: a `$FRAME` line followed by a parsable in-range index
line selects that frame's dictionary for the following commands. -/
theorem scan_frame (c : Codec) (n : ℕ) (idxLine : Line) (rest : List Line)
    (pos : ℕ) (cur : Option ℕ) (P : ℕ → Dict) (i : ℕ)
    (hparse : c.parseI (trim idxLine) = some (i : ℤ))
    (hrange : (i : ℤ) < (n : ℤ)) :
    scan c n (kwFRAME :: idxLine :: rest) pos cur P
      = scan c n rest (pos + 2) (some i) P := by
  rw [scan.eq_def]
  have h1 : startsWithDollar kwFRAME = true := by decide
  have h2 : trim kwFRAME = kwFRAME := by decide
  have h3 : ¬ ((i : ℤ) < 0) := by omega
  have h4 : (0 : ℤ) ≤ (i : ℤ) := by omega
  simp [h1, h2, h3, h4, hparse, hrange]

/-- Stepping lemma: an `$END_FRAME` line leaves the in-frame state. -/
theorem scan_endframe (c : Codec) (n : ℕ) (rest : List Line) (pos : ℕ)
    (cur : Option ℕ) (P : ℕ → Dict) :
    scan c n (kwENDFRAME :: rest) pos cur P = scan c n rest (pos + 1) none P := by
  rw [scan.eq_def]
  have h1 : startsWithDollar kwENDFRAME = true := by decide
  have h2 : trim kwENDFRAME = kwENDFRAME := by decide
  have h3 : kwENDFRAME ≠ kwFRAME := by decide
  simp [h1, h2, h3]

theorem startsWithDollar_commaJoin (t : Line) (ts : List Line) (hpl : plainToken t) :
    startsWithDollar (commaJoin (t :: ts)) = false := by
  cases ts with
  | nil => exact startsWithDollar_of_plain t hpl
  | cons t' ts' =>
      rw [show commaJoin (t :: t' :: ts') = t ++ ',' :: ' ' :: commaJoin (t' :: ts') from rfl,
        startsWithDollar_append _ _ hpl.1]
      exact startsWithDollar_of_plain t hpl

theorem startsWithDollar_nodeLine (c : Codec) (hc : CodecOK c) (p : ℚ × ℚ × ℚ) :
    startsWithDollar (nodeLine c p) = false :=
  startsWithDollar_commaJoin _ _ (hc.fmtQ_plain p.1)

theorem startsWithDollar_elemLine (c : Codec) (e : ElementTypes × List ℕ) :
    startsWithDollar (elemLine c e) = false := by
  rcases e with ⟨t, conn⟩
  cases t <;> rfl

/-- Stepping lemma: one whole section (command line, payload, blank line)
records its keyword and advances. -/
theorem scan_section (c : Codec) (n : ℕ) (cmd : Line) (payload : List Line)
    (rest : List Line) (pos : ℕ) (f : ℕ) (P : ℕ → Dict) (kw : Line)
    (hd : startsWithDollar cmd = true) (ht : trim cmd = cmd)
    (hne1 : cmd ≠ kwFRAME) (hne2 : cmd ≠ kwENDFRAME)
    (hkey : cmd.takeWhile (fun ch => ch ≠ ' ') = kw)
    (hpay : ∀ l ∈ payload, startsWithDollar l = false)
    (ptr pos' : ℕ) (hptr : ptr = pos + 1)
    (hpos : pos' = pos + payload.length + 2) :
    scan c n (sectionLines cmd payload ++ rest) pos (some f) P
      = scan c n rest pos' (some f) (updateP P f kw (cmd, ptr)) := by
  subst hptr hpos hkey
  rw [sectionLines, List.cons_append,
    scan_command c n cmd _ pos f P hd ht hne1 hne2,
    scan_skip c n (payload ++ [[]]) ?_ rest (pos + 1) (some f) _]
  · congr 1
    simp
    omega
  · intro l hl
    rcases List.mem_append.mp hl with h | h
    · exact hpay l h
    · rw [List.mem_singleton.mp h]
      rfl

/-- The pointer entries that one frame block contributes, with `pos` the
block's first line index and `f` the frame index it records. -/
def blockOverlay (P : ℕ → Dict) (c : Codec) (f pos : ℕ) (fr : FrameData) : ℕ → Dict :=
  updateP (updateP (updateP (updateP (updateP (updateP (updateP P
    f kwDESCRIPTION (kwDESCRIPTION, pos + 4))
    f kwNODES (countLine kwNODES c fr.mesh.nodes.length, pos + 7))
    f kwELEMENTS (countLine kwELEMENTS c fr.mesh.elements.length,
      pos + 9 + fr.mesh.nodes.length))
    f kwNodeOutputTitles (countLine kwNodeOutputTitles c fr.nodeOutput.length,
      pos + 11 + fr.mesh.nodes.length + fr.mesh.elements.length))
    f kwNodeOutputValues (countLine kwNodeOutputValues c
        (if 0 < fr.nodeOutput.length then fr.mesh.nodes.length else 0),
      pos + 13 + fr.mesh.nodes.length + fr.mesh.elements.length
        + fr.nodeOutput.length))
    f kwGlobalOutputTitles (countLine kwGlobalOutputTitles c fr.globalOutput.length,
      pos + 15 + fr.mesh.nodes.length + fr.mesh.elements.length
        + fr.nodeOutput.length
        + (zipRows (fr.nodeOutput.map (fun x => x.2))).length))
    f kwGlobalOutputValues (countLine kwGlobalOutputValues c fr.globalOutput.length,
      pos + 17 + fr.mesh.nodes.length + fr.mesh.elements.length
        + fr.nodeOutput.length
        + (zipRows (fr.nodeOutput.map (fun x => x.2))).length
        + fr.globalOutput.length)

theorem frameLines_length (c : Codec) (idx : ℤ) (fr : FrameData) :
    (frameLines c idx fr).length
      = 20 + fr.mesh.nodes.length + fr.mesh.elements.length + fr.nodeOutput.length
          + (zipRows (fr.nodeOutput.map (fun x => x.2))).length
          + 2 * fr.globalOutput.length := by
  simp [frameLines, sectionLines]
  omega

/-- Scanning one clean frame block updates exactly that frame's pointer
dictionary and leaves the in-frame state. -/
theorem scan_block (c : Codec) (hc : CodecOK c) (n : ℕ) (i : ℕ)
    (hrange : (i : ℤ) < (n : ℤ)) (fr : FrameData) (hclean : FrameClean fr)
    (rest : List Line) (pos : ℕ) (cur : Option ℕ) (P : ℕ → Dict) :
    scan c n (frameLines c (i : ℤ) fr ++ rest) pos cur P
      = scan c n rest (pos + (frameLines c (i : ℤ) fr).length) none
          (blockOverlay P c i pos fr) := by
  obtain ⟨hdesc, hnout, hgout, _, _, _⟩ := hclean
  rw [frameLines]
  simp only [List.cons_append, List.append_assoc]
  rw [scan_frame c n (c.fmtI (i : ℤ)) _ pos cur P i
    (by rw [trim_eq_self_of_plain _ (hc.fmtI_plain _)]; exact hc.parseI_fmtI _)
    hrange]
  rw [show ([] : Line) ::
      (sectionLines kwDESCRIPTION [fr.description] ++ _) = [([] : Line)] ++
      (sectionLines kwDESCRIPTION [fr.description] ++ _) from rfl,
    scan_skip c n [[]] (by intro l hl; rw [List.mem_singleton.mp hl]; rfl) _ _ _ _]
  rw [scan_section c n kwDESCRIPTION [fr.description] _ _ i _ kwDESCRIPTION
    (by decide) (by decide) (by decide) (by decide) (by decide)
    (by intro l hl; rw [List.mem_singleton.mp hl]; exact hdesc.2.1)
    (pos + 4) (pos + 6) (by (try simp) <;> omega) (by (try simp) <;> omega)]
  rw [scan_section c n (countLine kwNODES c fr.mesh.nodes.length)
    (fr.mesh.nodes.map (nodeLine c)) _ _ i _ kwNODES
    (by rw [countLine, startsWithDollar_append _ _ (by decide)]; decide)
    (trim_countLine c kwNODES _ ⟨'$', "NODES".toList, by decide, by decide⟩
      (hc.fmtI_plain _))
    (countLine_ne_of_get c kwNODES kwFRAME _ 1 (by decide) (by decide))
    (countLine_ne_of_get c kwNODES kwENDFRAME _ 1 (by decide) (by decide))
    (takeWhile_countLine c kwNODES _ (by decide) (hc.fmtI_plain _))
    (by
      intro l hl
      obtain ⟨p, _, hp⟩ := List.mem_map.mp hl
      rw [← hp]
      exact startsWithDollar_nodeLine c hc p)
    (pos + 7) (pos + 8 + fr.mesh.nodes.length) (by omega) (by simp; omega)]
  rw [scan_section c n (countLine kwELEMENTS c fr.mesh.elements.length)
    (fr.mesh.elements.map (elemLine c)) _ _ i _ kwELEMENTS
    (by rw [countLine, startsWithDollar_append _ _ (by decide)]; decide)
    (trim_countLine c kwELEMENTS _ ⟨'$', "ELEMENTS".toList, by decide, by decide⟩
      (hc.fmtI_plain _))
    (countLine_ne_of_get c kwELEMENTS kwFRAME _ 1 (by decide) (by decide))
    (countLine_ne_of_get c kwELEMENTS kwENDFRAME _ 2 (by decide) (by decide))
    (takeWhile_countLine c kwELEMENTS _ (by decide) (hc.fmtI_plain _))
    (by
      intro l hl
      obtain ⟨e, _, he⟩ := List.mem_map.mp hl
      rw [← he]
      exact startsWithDollar_elemLine c e)
    (pos + 9 + fr.mesh.nodes.length)
    (pos + 10 + fr.mesh.nodes.length + fr.mesh.elements.length)
    (by (try simp) <;> omega) (by (try simp) <;> omega)]
  rw [scan_section c n (countLine kwNodeOutputTitles c fr.nodeOutput.length)
    (fr.nodeOutput.map (fun x => x.1)) _ _ i _ kwNodeOutputTitles
    (by rw [countLine, startsWithDollar_append _ _ (by decide)]; decide)
    (trim_countLine c kwNodeOutputTitles _
      ⟨'$', "NODE_OUTPUT_TITLES".toList, by decide, by decide⟩ (hc.fmtI_plain _))
    (countLine_ne_of_get c kwNodeOutputTitles kwFRAME _ 1 (by decide) (by decide))
    (countLine_ne_of_get c kwNodeOutputTitles kwENDFRAME _ 1 (by decide) (by decide))
    (takeWhile_countLine c kwNodeOutputTitles _ (by decide) (hc.fmtI_plain _))
    (by
      intro l hl
      obtain ⟨x, hx, hxe⟩ := List.mem_map.mp hl
      rw [← hxe]
      exact ((hnout x hx).1).2.1)
    (pos + 11 + fr.mesh.nodes.length + fr.mesh.elements.length)
    (pos + 12 + fr.mesh.nodes.length + fr.mesh.elements.length + fr.nodeOutput.length)
    (by (try simp) <;> omega) (by (try simp) <;> omega)]
  rw [scan_section c n (countLine kwNodeOutputValues c
      (if 0 < fr.nodeOutput.length then fr.mesh.nodes.length else 0))
    ((zipRows (fr.nodeOutput.map (fun x => x.2))).map
      (fun row => commaJoin (row.map c.fmtQ))) _ _ i _ kwNodeOutputValues
    (by rw [countLine, startsWithDollar_append _ _ (by decide)]; decide)
    (trim_countLine c kwNodeOutputValues _
      ⟨'$', "NODE_OUTPUT_VALUES".toList, by decide, by decide⟩ (hc.fmtI_plain _))
    (countLine_ne_of_get c kwNodeOutputValues kwFRAME _ 1 (by decide) (by decide))
    (countLine_ne_of_get c kwNodeOutputValues kwENDFRAME _ 1 (by decide) (by decide))
    (takeWhile_countLine c kwNodeOutputValues _ (by decide) (hc.fmtI_plain _))
    (by
      intro l hl
      obtain ⟨row, hrow, hre⟩ := List.mem_map.mp hl
      rw [← hre]
      obtain ⟨r, _, hr⟩ := List.mem_map.mp hrow
      cases hno : fr.nodeOutput with
      | nil =>
          exfalso
          rw [hno] at hrow
          simp [zipRows, minLen] at hrow
      | cons x xs =>
          have : row.map c.fmtQ
              = c.fmtQ (x.2.getD r 0) ::
                  (xs.map (fun y => y.2)).map (fun l2 => c.fmtQ (l2.getD r 0)) := by
            rw [← hr, hno]
            simp
          rw [this]
          exact startsWithDollar_commaJoin _ _ (hc.fmtQ_plain _))
    (pos + 13 + fr.mesh.nodes.length + fr.mesh.elements.length + fr.nodeOutput.length)
    (pos + 14 + fr.mesh.nodes.length + fr.mesh.elements.length + fr.nodeOutput.length
      + (zipRows (fr.nodeOutput.map (fun x => x.2))).length)
    (by (try simp) <;> omega) (by (try simp) <;> omega)]
  rw [scan_section c n (countLine kwGlobalOutputTitles c fr.globalOutput.length)
    (fr.globalOutput.map (fun x => x.1)) _ _ i _ kwGlobalOutputTitles
    (by rw [countLine, startsWithDollar_append _ _ (by decide)]; decide)
    (trim_countLine c kwGlobalOutputTitles _
      ⟨'$', "GLOBAL_OUTPUT_TITLES".toList, by decide, by decide⟩ (hc.fmtI_plain _))
    (countLine_ne_of_get c kwGlobalOutputTitles kwFRAME _ 1 (by decide) (by decide))
    (countLine_ne_of_get c kwGlobalOutputTitles kwENDFRAME _ 1 (by decide) (by decide))
    (takeWhile_countLine c kwGlobalOutputTitles _ (by decide) (hc.fmtI_plain _))
    (by
      intro l hl
      obtain ⟨x, hx, hxe⟩ := List.mem_map.mp hl
      rw [← hxe]
      exact (hgout x hx).2.1)
    (pos + 15 + fr.mesh.nodes.length + fr.mesh.elements.length + fr.nodeOutput.length
      + (zipRows (fr.nodeOutput.map (fun x => x.2))).length)
    (pos + 16 + fr.mesh.nodes.length + fr.mesh.elements.length + fr.nodeOutput.length
      + (zipRows (fr.nodeOutput.map (fun x => x.2))).length + fr.globalOutput.length)
    (by (try simp) <;> omega) (by (try simp) <;> omega)]
  rw [scan_section c n (countLine kwGlobalOutputValues c fr.globalOutput.length)
    (fr.globalOutput.map (fun x => c.fmtQ x.2)) _ _ i _ kwGlobalOutputValues
    (by rw [countLine, startsWithDollar_append _ _ (by decide)]; decide)
    (trim_countLine c kwGlobalOutputValues _
      ⟨'$', "GLOBAL_OUTPUT_VALUES".toList, by decide, by decide⟩ (hc.fmtI_plain _))
    (countLine_ne_of_get c kwGlobalOutputValues kwFRAME _ 1 (by decide) (by decide))
    (countLine_ne_of_get c kwGlobalOutputValues kwENDFRAME _ 1 (by decide) (by decide))
    (takeWhile_countLine c kwGlobalOutputValues _ (by decide) (hc.fmtI_plain _))
    (by
      intro l hl
      obtain ⟨x, _, hxe⟩ := List.mem_map.mp hl
      rw [← hxe]
      exact startsWithDollar_of_plain _ (hc.fmtQ_plain _))
    (pos + 17 + fr.mesh.nodes.length + fr.mesh.elements.length + fr.nodeOutput.length
      + (zipRows (fr.nodeOutput.map (fun x => x.2))).length + fr.globalOutput.length)
    (pos + 18 + fr.mesh.nodes.length + fr.mesh.elements.length + fr.nodeOutput.length
      + (zipRows (fr.nodeOutput.map (fun x => x.2))).length
      + 2 * fr.globalOutput.length)
    (by (try simp) <;> omega) (by (try simp) <;> omega)]
  rw [scan_endframe]
  rw [show (([] : Line) :: (([] : List Line) ++ rest)) = [([] : Line)] ++ rest by simp,
    scan_skip c n [[]] (by intro l hl; rw [List.mem_singleton.mp hl]; rfl) _ _ _ _]
  congr 1
  all_goals first
    | rfl
    | (simp [sectionLines]
       omega)

theorem mem_trim (x : Char) (l : Line) (h : x ∈ trim l) : x ∈ l := by
  unfold trim at h
  rw [List.mem_reverse] at h
  have h1 := (List.dropWhile_sublist _).subset h
  rw [List.mem_reverse] at h1
  exact (List.dropWhile_sublist _).subset h1

theorem trim_ne_kwFRAME_of_no_dollar (l : Line) (h : '$' ∉ l) :
    ¬ trim l = kwFRAME := by
  intro he
  exact h (mem_trim '$' l (he ▸ (by decide : '$' ∈ kwFRAME)))

theorem trim_ne_kwFRAME_of_clean (l : Line) (h : cleanText l) :
    ¬ trim l = kwFRAME := by
  intro he
  rw [h.1] at he
  have := h.2.1
  rw [he] at this
  exact absurd this (by decide)

theorem mem_commaJoin (x : Char) (toks : List Line) (h : x ∈ commaJoin toks) :
    (∃ t ∈ toks, x ∈ t) ∨ x = ',' ∨ x = ' ' := by
  induction toks with
  | nil => simp [commaJoin] at h
  | cons t ts ih =>
      cases ts with
      | nil =>
          exact Or.inl ⟨t, List.mem_cons_self t [], h⟩
      | cons t' ts' =>
          rw [show commaJoin (t :: t' :: ts') = t ++ ',' :: ' ' :: commaJoin (t' :: ts')
            from rfl] at h
          rcases List.mem_append.mp h with h | h
          · exact Or.inl ⟨t, List.mem_cons_self t _, h⟩
          · rcases List.mem_cons.mp h with rfl | h
            · exact Or.inr (Or.inl rfl)
            · rcases List.mem_cons.mp h with rfl | h
              · exact Or.inr (Or.inr rfl)
              · rcases ih h with ⟨u, hu, hx⟩ | h
                · exact Or.inl ⟨u, List.mem_cons_of_mem t hu, hx⟩
                · exact Or.inr h

theorem no_dollar_commaJoin (toks : List Line)
    (h : ∀ t ∈ toks, ∀ ch ∈ t, ch ≠ '$') : '$' ∉ commaJoin toks := by
  intro hmem
  rcases mem_commaJoin '$' toks hmem with ⟨t, ht, hx⟩ | h
  · exact h t ht '$' hx rfl
  · rcases h with h | h <;> exact absurd h (by decide)

theorem no_dollar_of_plain (l : Line) (h : plainToken l) : ∀ ch ∈ l, ch ≠ '$' :=
  fun ch hch => (h.2 ch hch).2.2

theorem no_dollar_nodeLine (c : Codec) (hc : CodecOK c) (p : ℚ × ℚ × ℚ) :
    '$' ∉ nodeLine c p := by
  apply no_dollar_commaJoin
  intro t ht
  rcases List.mem_cons.mp ht with rfl | ht
  · exact no_dollar_of_plain _ (hc.fmtQ_plain _)
  · rcases List.mem_cons.mp ht with rfl | ht
    · exact no_dollar_of_plain _ (hc.fmtQ_plain _)
    · rw [List.mem_singleton.mp ht]
      exact no_dollar_of_plain _ (hc.fmtQ_plain _)

theorem no_dollar_typeName (t : ElementTypes) : ∀ ch ∈ typeName t, ch ≠ '$' := by
  cases t <;> decide

theorem no_dollar_elemLine (c : Codec) (hc : CodecOK c) (e : ElementTypes × List ℕ) :
    '$' ∉ elemLine c e := by
  intro hmem
  rw [elemLine] at hmem
  rcases List.mem_append.mp hmem with h | h
  · exact no_dollar_typeName e.1 '$' h rfl
  · rcases List.mem_cons.mp h with h | h
    · exact absurd h (by decide)
    · rcases List.mem_cons.mp h with h | h
      · exact absurd h (by decide)
      · refine no_dollar_commaJoin _ ?_ h
        intro tok htok
        obtain ⟨m, _, hm⟩ := List.mem_map.mp htok
        rw [← hm]
        exact no_dollar_of_plain _ (hc.fmtI_plain _)

theorem trim_countLine_ne_kwFRAME (c : Codec) (hc : CodecOK c) (kw : Line) (m : ℕ)
    (hkw : ∃ ch rest, kw = ch :: rest ∧ ch.isWhitespace = false)
    (hi : ∃ j, j < kw.length ∧ kw.get? j ≠ kwFRAME.get? j) :
    ¬ trim (countLine kw c m) = kwFRAME := by
  rw [trim_countLine c kw m hkw (hc.fmtI_plain _)]
  obtain ⟨j, hj, hne⟩ := hi
  exact countLine_ne_of_get c kw kwFRAME m j hj hne

theorem countFrames_append (A B : List Line) :
    countFrames (A ++ B) = countFrames A + countFrames B := by
  simp [countFrames, List.filter_append]

theorem countFrames_nil : countFrames [] = 0 := rfl

/-- Each clean frame block contributes exactly one `$FRAME` line to the
frame count. -/
theorem countFrames_frameLines (c : Codec) (hc : CodecOK c) (idx : ℤ)
    (fr : FrameData) (hclean : FrameClean fr) :
    countFrames (frameLines c idx fr) = 1 := by
  obtain ⟨hdesc, hnout, hgout, _, _, _⟩ := hclean
  have hpay : ∀ (L : List Line), (∀ l ∈ L, ¬ trim l = kwFRAME) →
      L.filter (fun l => trim l = kwFRAME) = [] := by
    intro L h
    rw [List.filter_eq_nil]
    intro a ha
    simpa using h a ha
  rw [frameLines, sectionLines, sectionLines, sectionLines, sectionLines,
    sectionLines, sectionLines, sectionLines]
  rw [countFrames]
  simp only [List.cons_append, List.append_assoc, List.filter_cons,
    List.filter_append]
  have e1 : trim kwFRAME = kwFRAME := by decide
  have e2 : ¬ trim (c.fmtI idx) = kwFRAME :=
    trim_ne_kwFRAME_of_no_dollar _ (fun hm => no_dollar_of_plain _ (hc.fmtI_plain idx) '$' hm rfl)
  have e3 : ¬ trim ([] : Line) = kwFRAME := by decide
  have e4 : ¬ trim kwDESCRIPTION = kwFRAME := by decide
  have e5 : ¬ trim fr.description = kwFRAME := trim_ne_kwFRAME_of_clean _ hdesc
  have e6 : ¬ trim kwENDFRAME = kwFRAME := by decide
  have hkwne : ∀ (kw : Line) (m : ℕ),
      (∃ ch rest, kw = ch :: rest ∧ ch.isWhitespace = false) →
      (∃ j, j < kw.length ∧ kw.get? j ≠ kwFRAME.get? j) →
      ¬ trim (countLine kw c m) = kwFRAME := fun kw m a b =>
    trim_countLine_ne_kwFRAME c hc kw m a b
  have c1 := hkwne kwNODES fr.mesh.nodes.length
    ⟨'$', "NODES".toList, by decide, by decide⟩ ⟨1, by decide, by decide⟩
  have c2 := hkwne kwELEMENTS fr.mesh.elements.length
    ⟨'$', "ELEMENTS".toList, by decide, by decide⟩ ⟨1, by decide, by decide⟩
  have c3 := hkwne kwNodeOutputTitles fr.nodeOutput.length
    ⟨'$', "NODE_OUTPUT_TITLES".toList, by decide, by decide⟩ ⟨1, by decide, by decide⟩
  have c4 := hkwne kwNodeOutputValues
    (if 0 < fr.nodeOutput.length then fr.mesh.nodes.length else 0)
    ⟨'$', "NODE_OUTPUT_VALUES".toList, by decide, by decide⟩ ⟨1, by decide, by decide⟩
  have c5 := hkwne kwGlobalOutputTitles fr.globalOutput.length
    ⟨'$', "GLOBAL_OUTPUT_TITLES".toList, by decide, by decide⟩ ⟨1, by decide, by decide⟩
  have c6 := hkwne kwGlobalOutputValues fr.globalOutput.length
    ⟨'$', "GLOBAL_OUTPUT_VALUES".toList, by decide, by decide⟩ ⟨1, by decide, by decide⟩
  have p1 : (fr.mesh.nodes.map (nodeLine c)).filter (fun l => trim l = kwFRAME) = [] := by
    apply hpay
    intro l hl
    obtain ⟨p, _, hp⟩ := List.mem_map.mp hl
    rw [← hp]
    exact trim_ne_kwFRAME_of_no_dollar _ (no_dollar_nodeLine c hc p)
  have p2 : (fr.mesh.elements.map (elemLine c)).filter (fun l => trim l = kwFRAME) = [] := by
    apply hpay
    intro l hl
    obtain ⟨e, _, he⟩ := List.mem_map.mp hl
    rw [← he]
    exact trim_ne_kwFRAME_of_no_dollar _ (no_dollar_elemLine c hc e)
  have p3 : ((fr.nodeOutput.map (fun x => x.1)).filter (fun l => trim l = kwFRAME)) = [] := by
    apply hpay
    intro l hl
    obtain ⟨x, hx, hxe⟩ := List.mem_map.mp hl
    rw [← hxe]
    exact trim_ne_kwFRAME_of_clean _ (hnout x hx).1
  have p4 : (((zipRows (fr.nodeOutput.map (fun x => x.2))).map
      (fun row => commaJoin (row.map c.fmtQ))).filter (fun l => trim l = kwFRAME)) = [] := by
    apply hpay
    intro l hl
    obtain ⟨row, _, hre⟩ := List.mem_map.mp hl
    rw [← hre]
    refine trim_ne_kwFRAME_of_no_dollar _ (no_dollar_commaJoin _ ?_)
    intro tok htok
    obtain ⟨q, _, hq⟩ := List.mem_map.mp htok
    rw [← hq]
    exact no_dollar_of_plain _ (hc.fmtQ_plain _)
  have p5 : ((fr.globalOutput.map (fun x => x.1)).filter (fun l => trim l = kwFRAME)) = [] := by
    apply hpay
    intro l hl
    obtain ⟨x, hx, hxe⟩ := List.mem_map.mp hl
    rw [← hxe]
    exact trim_ne_kwFRAME_of_clean _ (hgout x hx)
  have p6 : ((fr.globalOutput.map (fun x => c.fmtQ x.2)).filter
      (fun l => trim l = kwFRAME)) = [] := by
    apply hpay
    intro l hl
    obtain ⟨x, _, hxe⟩ := List.mem_map.mp hl
    rw [← hxe]
    exact trim_ne_kwFRAME_of_no_dollar _
      (fun hm => no_dollar_of_plain _ (hc.fmtQ_plain _) '$' hm rfl)
  simp [e1, e2, e3, e4, e5, e6, c1, c2, c3, c4, c5, c6, p1, p2, p3, p4, p5, p6]

/-- Sequentially writing a list of frames with `ODB.writeNextFrame`. -/
def writeFrames (c : Codec) (o : ODB) : List FrameData → ODB
  | [] => o
  | fr :: frs => writeFrames c (o.writeNextFrame c fr) frs

/-- The lines of consecutive frame blocks with indices `k, k+1, …`. -/
def blocksFrom (c : Codec) (k : ℕ) : List FrameData → List Line
  | [] => []
  | fr :: frs => frameLines c (k : ℤ) fr ++ blocksFrom c (k + 1) frs

theorem writeFrames_currentFrame (c : Codec) (frs : List FrameData) :
    ∀ o : ODB, (writeFrames c o frs).currentFrame
      = o.currentFrame + frs.length := by
  induction frs with
  | nil => intro o; simp [writeFrames]
  | cons fr frs ih =>
      intro o
      rw [writeFrames, ih]
      simp [ODB.writeNextFrame]
      omega

theorem writeFrames_frameCount (c : Codec) (frs : List FrameData) :
    ∀ o : ODB, (writeFrames c o frs).frameCount = o.frameCount + frs.length := by
  induction frs with
  | nil => intro o; simp [writeFrames]
  | cons fr frs ih =>
      intro o
      rw [writeFrames, ih]
      simp [ODB.writeNextFrame]
      omega

theorem writeFrames_file (c : Codec) (frs : List FrameData) :
    ∀ (o : ODB) (k : ℕ), o.currentFrame = (k : ℤ) - 1 →
      (writeFrames c o frs).file = o.file ++ blocksFrom c k frs := by
  induction frs with
  | nil => intro o k _; simp [writeFrames, blocksFrom]
  | cons fr frs ih =>
      intro o k h
      have hk1 : o.currentFrame + 1 = (k : ℤ) := by omega
      rw [writeFrames, ih (o.writeNextFrame c fr) (k + 1)
        (by simp [ODB.writeNextFrame]; omega)]
      simp only [ODB.writeNextFrame, blocksFrom, hk1, List.append_assoc]

theorem countFrames_blocksFrom (c : Codec) (hc : CodecOK c) (frs : List FrameData)
    (hcl : ∀ fr ∈ frs, FrameClean fr) :
    ∀ k : ℕ, countFrames (blocksFrom c k frs) = frs.length := by
  induction frs with
  | nil => intro k; rfl
  | cons fr frs ih =>
      intro k
      rw [blocksFrom, countFrames_append,
        countFrames_frameLines c hc _ fr (hcl fr (List.mem_cons_self fr frs)),
        ih (fun f hf => hcl f (List.mem_cons_of_mem fr hf)) (k + 1)]
      simp
      omega

/-- The pointer dictionaries accumulated over consecutive frame blocks. -/
def multiOverlay (c : Codec) : List FrameData → (ℕ → Dict) → ℕ → ℕ → (ℕ → Dict)
  | [], P, _, _ => P
  | fr :: frs, P, k, pos =>
      multiOverlay c frs (blockOverlay P c k pos fr) (k + 1)
        (pos + (frameLines c (k : ℤ) fr).length)

theorem scan_blocksFrom (c : Codec) (hc : CodecOK c) (n : ℕ) (frs : List FrameData)
    (hcl : ∀ fr ∈ frs, FrameClean fr) :
    ∀ (k pos : ℕ) (cur : Option ℕ) (P : ℕ → Dict), k + frs.length ≤ n →
      scan c n (blocksFrom c k frs) pos cur P = some (multiOverlay c frs P k pos) := by
  induction frs with
  | nil => intro k pos cur P _; rfl
  | cons fr frs ih =>
      intro k pos cur P hk
      simp only [List.length_cons] at hk
      rw [blocksFrom, scan_block c hc n k (by omega) fr
        (hcl fr (List.mem_cons_self fr frs)) _ pos cur P,
        ih (fun f hf => hcl f (List.mem_cons_of_mem fr hf)) (k + 1) _ none _ (by omega)]
      rfl

theorem blockOverlay_apply_ne (P : ℕ → Dict) (c : Codec) (f pos : ℕ)
    (fr : FrameData) (g : ℕ) (hg : g ≠ f) : blockOverlay P c f pos fr g = P g := by
  simp [blockOverlay, updateP, hg]

theorem multiOverlay_apply_lt (c : Codec) (frs : List FrameData) :
    ∀ (P : ℕ → Dict) (k pos g : ℕ), g < k → multiOverlay c frs P k pos g = P g := by
  induction frs with
  | nil => intro P k pos g _; rfl
  | cons fr frs ih =>
      intro P k pos g hg
      rw [show multiOverlay c (fr :: frs) P k pos
          = multiOverlay c frs (blockOverlay P c k pos fr) (k + 1)
              (pos + (frameLines c (k : ℤ) fr).length) from rfl,
        ih _ (k + 1) _ g (by omega)]
      exact blockOverlay_apply_ne P c k pos fr g (by omega)

/-- The keyword set of one frame block's pointer dictionary. -/
def frameKeys : List Line :=
  [kwDESCRIPTION, kwNODES, kwELEMENTS, kwNodeOutputTitles, kwNodeOutputValues,
   kwGlobalOutputTitles, kwGlobalOutputValues]

/-- The canonical pointer dictionary of one frame block (`pos` the block's
first line index). -/
def frameDict (c : Codec) (f pos : ℕ) (fr : FrameData) : Dict :=
  blockOverlay (fun _ _ => none) c f pos fr f

theorem blockOverlay_apply_key (P : ℕ → Dict) (c : Codec) (f pos : ℕ)
    (fr : FrameData) (key : Line) (hkey : key ∈ frameKeys) :
    blockOverlay P c f pos fr f key = frameDict c f pos fr key := by
  simp only [frameKeys, List.mem_cons, List.not_mem_nil, or_false] at hkey
  rcases hkey with rfl | rfl | rfl | rfl | rfl | rfl | rfl <;>
    simp +decide [blockOverlay, frameDict, updateP]

theorem multiOverlay_get (c : Codec) (frs : List FrameData) :
    ∀ (j k pos : ℕ) (P : ℕ → Dict) (hj : j < frs.length) (key : Line),
      key ∈ frameKeys →
      multiOverlay c frs P k pos (k + j) key
        = frameDict c (k + j) (pos + (blocksFrom c k (frs.take j)).length)
            (frs.get ⟨j, hj⟩) key := by
  induction frs with
  | nil => intro j _ _ _ hj _ _; exact absurd hj (by simp)
  | cons fr frs ih =>
      intro j k pos P hj key hkey
      rw [show multiOverlay c (fr :: frs) P k pos
          = multiOverlay c frs (blockOverlay P c k pos fr) (k + 1)
              (pos + (frameLines c (k : ℤ) fr).length) from rfl]
      cases j with
      | zero =>
          rw [multiOverlay_apply_lt c frs _ (k + 1) _ (k + 0) (by omega)]
          simp only [List.take_zero, Nat.add_zero]
          rw [show blocksFrom c k [] = [] from rfl]
          simp only [List.length_nil, Nat.add_zero]
          rw [show (fr :: frs).get ⟨0, hj⟩ = fr from rfl]
          exact blockOverlay_apply_key P c k pos fr key hkey
      | succ j' =>
          simp only [List.length_cons] at hj
          rw [show k + (j' + 1) = (k + 1) + j' from by omega,
            ih j' (k + 1) _ _ (by omega) key hkey]
          rw [show (fr :: frs).take (j' + 1) = fr :: frs.take j' from rfl,
            show blocksFrom c k (fr :: frs.take j')
              = frameLines c (k : ℤ) fr ++ blocksFrom c (k + 1) (frs.take j') from rfl]
          rw [show (fr :: frs).get ⟨j' + 1, by simp; omega⟩
              = frs.get ⟨j', by omega⟩ from rfl]
          simp only [List.length_append]
          congr 1
          omega

/-- `ODB.__init__` in read mode on the file produced by writing a nonempty
list of clean frames: the open succeeds, the counters record the written
frames and the pointer index is the accumulated block overlay. -/
theorem openRead_writeFrames (c : Codec) (hc : CodecOK c) (frs : List FrameData)
    (hne : frs ≠ []) (hcl : ∀ fr ∈ frs, FrameClean fr) :
    ODB.openRead c (writeFrames c (ODB.openWrite none true) frs).file
      = some ⟨blocksFrom c 0 frs, frs.length, (frs.length : ℤ) - 1,
          multiOverlay c frs (fun _ _ => none) 0 0⟩ := by
  have hfile : (writeFrames c (ODB.openWrite none true) frs).file
      = blocksFrom c 0 frs := by
    rw [writeFrames_file c frs (ODB.openWrite none true) 0 (by simp [ODB.openWrite])]
    simp [ODB.openWrite]
  rw [hfile, ODB.openRead]
  have hcount : countFrames (blocksFrom c 0 frs) = frs.length :=
    countFrames_blocksFrom c hc frs hcl 0
  have hlen : frs.length ≠ 0 := fun h => hne (List.length_eq_zero.mp h)
  simp only [hcount, if_neg hlen]
  rw [scan_blocksFrom c hc frs.length frs hcl 0 0 none _ (by omega)]

theorem getLine_shift (A B : List Line) (i j : ℕ) (h : i = A.length + j) :
    getLine (A ++ B) i = getLine B j := by
  subst h
  unfold getLine
  rw [List.get?_eq_getElem?, List.get?_eq_getElem?,
    List.getElem?_append_right (Nat.le_add_right _ _)]
  simp

theorem getLine_prefix (A B : List Line) (i : ℕ) (h : i < A.length) :
    getLine (A ++ B) i = getLine A i := by
  unfold getLine
  rw [List.get?_eq_getElem?, List.get?_eq_getElem?, List.getElem?_append_left h]

theorem getLine_map {α : Type} (g : α → Line) (L : List α) (r : ℕ)
    (hr : r < L.length) : getLine (L.map g) r = g (L.get ⟨r, hr⟩) := by
  unfold getLine
  rw [List.get?_eq_getElem?, List.getElem?_map, List.getElem?_eq_getElem hr]
  simp [List.get_eq_getElem]

/-- The lines of one frame block, written as a flat alternation of fixed
header segments and payload maps. -/
theorem frameLines_flat (c : Codec) (idx : ℤ) (fr : FrameData) :
    frameLines c idx fr
      = [kwFRAME, c.fmtI idx, [], kwDESCRIPTION, fr.description, [],
          countLine kwNODES c fr.mesh.nodes.length]
        ++ (fr.mesh.nodes.map (nodeLine c)
        ++ ([[], countLine kwELEMENTS c fr.mesh.elements.length]
        ++ (fr.mesh.elements.map (elemLine c)
        ++ ([[], countLine kwNodeOutputTitles c fr.nodeOutput.length]
        ++ (fr.nodeOutput.map (fun x => x.1)
        ++ ([[], countLine kwNodeOutputValues c
              (if 0 < fr.nodeOutput.length then fr.mesh.nodes.length else 0)]
        ++ ((zipRows (fr.nodeOutput.map (fun x => x.2))).map
              (fun row => commaJoin (row.map c.fmtQ))
        ++ ([[], countLine kwGlobalOutputTitles c fr.globalOutput.length]
        ++ (fr.globalOutput.map (fun x => x.1)
        ++ ([[], countLine kwGlobalOutputValues c fr.globalOutput.length]
        ++ (fr.globalOutput.map (fun x => c.fmtQ x.2)
        ++ [[], kwENDFRAME, []]))))))))))) := by
  simp [frameLines, sectionLines]

theorem frameLines_at_desc (c : Codec) (idx : ℤ) (fr : FrameData) :
    getLine (frameLines c idx fr) 4 = fr.description := by
  rw [frameLines_flat, getLine_prefix _ _ 4 (by simp)]
  rfl

theorem frameLines_at_node (c : Codec) (idx : ℤ) (fr : FrameData) (r : ℕ)
    (hr : r < fr.mesh.nodes.length) :
    getLine (frameLines c idx fr) (7 + r)
      = nodeLine c (fr.mesh.nodes.get ⟨r, hr⟩) := by
  rw [frameLines_flat, getLine_shift _ _ (7 + r) r (by simp),
    getLine_prefix _ _ r (by simpa using hr), getLine_map _ _ r (by simpa using hr)]

theorem frameLines_at_elem (c : Codec) (idx : ℤ) (fr : FrameData) (r : ℕ)
    (hr : r < fr.mesh.elements.length) :
    getLine (frameLines c idx fr) (9 + fr.mesh.nodes.length + r)
      = elemLine c (fr.mesh.elements.get ⟨r, hr⟩) := by
  rw [frameLines_flat,
    getLine_shift _ _ (9 + fr.mesh.nodes.length + r)
      (2 + fr.mesh.nodes.length + r) (by (try simp) <;> omega),
    getLine_shift _ _ (2 + fr.mesh.nodes.length + r) (2 + r)
      (by (try simp) <;> omega),
    getLine_shift _ _ (2 + r) r (by (try simp) <;> omega),
    getLine_prefix _ _ r (by simpa using hr), getLine_map _ _ r (by simpa using hr)]

theorem frameLines_at_ntitle (c : Codec) (idx : ℤ) (fr : FrameData) (r : ℕ)
    (hr : r < fr.nodeOutput.length) :
    getLine (frameLines c idx fr)
        (11 + fr.mesh.nodes.length + fr.mesh.elements.length + r)
      = (fr.nodeOutput.get ⟨r, hr⟩).1 := by
  rw [frameLines_flat,
    getLine_shift _ _ _ (4 + fr.mesh.nodes.length + fr.mesh.elements.length + r)
      (by (try simp) <;> omega),
    getLine_shift _ _ _ (4 + fr.mesh.elements.length + r) (by (try simp) <;> omega),
    getLine_shift _ _ _ (2 + fr.mesh.elements.length + r) (by (try simp) <;> omega),
    getLine_shift _ _ _ (2 + r) (by (try simp) <;> omega),
    getLine_shift _ _ _ r (by (try simp) <;> omega),
    getLine_prefix _ _ r (by simpa using hr), getLine_map _ _ r (by simpa using hr)]

theorem frameLines_at_nvalue (c : Codec) (idx : ℤ) (fr : FrameData) (r : ℕ)
    (hr : r < (zipRows (fr.nodeOutput.map (fun x => x.2))).length) :
    getLine (frameLines c idx fr)
        (13 + fr.mesh.nodes.length + fr.mesh.elements.length
          + fr.nodeOutput.length + r)
      = commaJoin
          (((zipRows (fr.nodeOutput.map (fun x => x.2))).get ⟨r, hr⟩).map c.fmtQ) := by
  rw [frameLines_flat,
    getLine_shift _ _ _ (6 + fr.mesh.nodes.length + fr.mesh.elements.length
      + fr.nodeOutput.length + r) (by (try simp) <;> omega),
    getLine_shift _ _ _ (6 + fr.mesh.elements.length + fr.nodeOutput.length + r)
      (by (try simp) <;> omega),
    getLine_shift _ _ _ (4 + fr.mesh.elements.length + fr.nodeOutput.length + r)
      (by (try simp) <;> omega),
    getLine_shift _ _ _ (4 + fr.nodeOutput.length + r) (by (try simp) <;> omega),
    getLine_shift _ _ _ (2 + fr.nodeOutput.length + r) (by (try simp) <;> omega),
    getLine_shift _ _ _ (2 + r) (by (try simp) <;> omega),
    getLine_shift _ _ _ r (by (try simp) <;> omega),
    getLine_prefix _ _ r (by simpa using hr), getLine_map _ _ r (by simpa using hr)]

theorem frameLines_at_gtitle (c : Codec) (idx : ℤ) (fr : FrameData) (r : ℕ)
    (hr : r < fr.globalOutput.length) :
    getLine (frameLines c idx fr)
        (15 + fr.mesh.nodes.length + fr.mesh.elements.length + fr.nodeOutput.length
          + (zipRows (fr.nodeOutput.map (fun x => x.2))).length + r)
      = (fr.globalOutput.get ⟨r, hr⟩).1 := by
  rw [frameLines_flat,
    getLine_shift _ _ _ (8 + fr.mesh.nodes.length + fr.mesh.elements.length
        + fr.nodeOutput.length + (zipRows (fr.nodeOutput.map (fun x => x.2))).length + r)
      (by (try simp) <;> omega),
    getLine_shift _ _ _ (8 + fr.mesh.elements.length + fr.nodeOutput.length
        + (zipRows (fr.nodeOutput.map (fun x => x.2))).length + r)
      (by (try simp) <;> omega),
    getLine_shift _ _ _ (6 + fr.mesh.elements.length + fr.nodeOutput.length
        + (zipRows (fr.nodeOutput.map (fun x => x.2))).length + r)
      (by (try simp) <;> omega),
    getLine_shift _ _ _ (6 + fr.nodeOutput.length
        + (zipRows (fr.nodeOutput.map (fun x => x.2))).length + r)
      (by (try simp) <;> omega),
    getLine_shift _ _ _ (4 + fr.nodeOutput.length
        + (zipRows (fr.nodeOutput.map (fun x => x.2))).length + r)
      (by (try simp) <;> omega),
    getLine_shift _ _ _ (4 + (zipRows (fr.nodeOutput.map (fun x => x.2))).length + r)
      (by (try simp) <;> omega),
    getLine_shift _ _ _ (2 + (zipRows (fr.nodeOutput.map (fun x => x.2))).length + r)
      (by (try simp) <;> omega),
    getLine_shift _ _ _ (2 + r) (by (try simp) <;> omega),
    getLine_shift _ _ _ r (by (try simp) <;> omega),
    getLine_prefix _ _ r (by simpa using hr), getLine_map _ _ r (by simpa using hr)]

theorem frameLines_at_gvalue (c : Codec) (idx : ℤ) (fr : FrameData) (r : ℕ)
    (hr : r < fr.globalOutput.length) :
    getLine (frameLines c idx fr)
        (17 + fr.mesh.nodes.length + fr.mesh.elements.length + fr.nodeOutput.length
          + (zipRows (fr.nodeOutput.map (fun x => x.2))).length
          + fr.globalOutput.length + r)
      = c.fmtQ (fr.globalOutput.get ⟨r, hr⟩).2 := by
  rw [frameLines_flat,
    getLine_shift _ _ _ (10 + fr.mesh.nodes.length + fr.mesh.elements.length
        + fr.nodeOutput.length + (zipRows (fr.nodeOutput.map (fun x => x.2))).length
        + fr.globalOutput.length + r)
      (by (try simp) <;> omega),
    getLine_shift _ _ _ (10 + fr.mesh.elements.length + fr.nodeOutput.length
        + (zipRows (fr.nodeOutput.map (fun x => x.2))).length
        + fr.globalOutput.length + r)
      (by (try simp) <;> omega),
    getLine_shift _ _ _ (8 + fr.mesh.elements.length + fr.nodeOutput.length
        + (zipRows (fr.nodeOutput.map (fun x => x.2))).length
        + fr.globalOutput.length + r)
      (by (try simp) <;> omega),
    getLine_shift _ _ _ (8 + fr.nodeOutput.length
        + (zipRows (fr.nodeOutput.map (fun x => x.2))).length
        + fr.globalOutput.length + r)
      (by (try simp) <;> omega),
    getLine_shift _ _ _ (6 + fr.nodeOutput.length
        + (zipRows (fr.nodeOutput.map (fun x => x.2))).length
        + fr.globalOutput.length + r)
      (by (try simp) <;> omega),
    getLine_shift _ _ _ (6 + (zipRows (fr.nodeOutput.map (fun x => x.2))).length
        + fr.globalOutput.length + r)
      (by (try simp) <;> omega),
    getLine_shift _ _ _ (4 + (zipRows (fr.nodeOutput.map (fun x => x.2))).length
        + fr.globalOutput.length + r)
      (by (try simp) <;> omega),
    getLine_shift _ _ _ (4 + fr.globalOutput.length + r) (by (try simp) <;> omega),
    getLine_shift _ _ _ (2 + fr.globalOutput.length + r) (by (try simp) <;> omega),
    getLine_shift _ _ _ (2 + r) (by (try simp) <;> omega),
    getLine_shift _ _ _ r (by (try simp) <;> omega),
    getLine_prefix _ _ r (by simpa using hr), getLine_map _ _ r (by simpa using hr)]

theorem space_not_mem_of_plain (l : Line) (h : plainToken l) : ' ' ∉ l := by
  intro hm
  have := (h.2 ' ' hm).1
  exact absurd this (by decide)

theorem comma_not_mem_of_plain (l : Line) (h : plainToken l) : ',' ∉ l :=
  fun hm => (h.2 ',' hm).2.1 rfl

/-- Reading back the count recorded on a `$KEYWORD count` line. -/
theorem parseCount_countLine (c : Codec) (hc : CodecOK c) (kw : Line) (m : ℕ)
    (hkw : ' ' ∉ kw) : parseCount c (countLine kw c m) = some (m : ℤ) := by
  unfold parseCount countLine
  rw [splitOnChar_append_cons ' ' kw _ hkw,
    splitOnChar_of_not_mem ' ' _ (space_not_mem_of_plain _ (hc.fmtI_plain _))]
  simp [trim_eq_self_of_plain _ (hc.fmtI_plain _), hc.parseI_fmtI]

theorem mapM_map_eq_some {α β γ : Type} (f : β → Option γ) (g : α → β) (h : α → γ)
    (l : List α) (hfg : ∀ a ∈ l, f (g a) = some (h a)) :
    (l.map g).mapM f = some (l.map h) := by
  induction l with
  | nil => rfl
  | cons a as ih =>
      rw [List.map_cons, List.map_cons, List.mapM_cons,
        hfg a (List.mem_cons_self a as),
        ih (fun x hx => hfg x (List.mem_cons_of_mem a hx))]
      rfl

theorem range_map_congr {α : Type} (n : ℕ) (f g : ℕ → α)
    (h : ∀ r, r < n → f r = g r) :
    (List.range n).map f = (List.range n).map g := by
  refine List.ext_getElem (by simp) ?_
  intro i h1 h2
  simp only [List.getElem_map, List.getElem_range]
  exact h i (by simpa using h1)

theorem range_map_getD_map {α β : Type} (l : List α) (d : α) (g : α → β) :
    (List.range l.length).map (fun r => g (l.getD r d)) = l.map g := by
  refine List.ext_getElem (by simp) ?_
  intro i h1 h2
  simp only [List.getElem_map, List.getElem_range]
  congr 1
  exact List.getD_eq_getElem l d (by simpa using h1)

/-- Reading back one written nodal-coordinate line. -/
theorem parseNodeLine_nodeLine (c : Codec) (hc : CodecOK c) (p : ℚ × ℚ × ℚ) :
    parseNodeLine c (nodeLine c p) = some p := by
  unfold parseNodeLine nodeLine
  rw [splitOnChar_commaJoin (c.fmtQ p.1) [c.fmtQ p.2.1, c.fmtQ p.2.2] ?hcomma]
  case hcomma =>
    intro x hx
    rcases List.mem_cons.mp hx with rfl | hx
    · exact comma_not_mem_of_plain _ (hc.fmtQ_plain _)
    · rcases List.mem_cons.mp hx with rfl | hx
      · exact comma_not_mem_of_plain _ (hc.fmtQ_plain _)
      · rw [List.mem_singleton.mp hx]
        exact comma_not_mem_of_plain _ (hc.fmtQ_plain _)
  have t1 : trim (c.fmtQ p.1) = c.fmtQ p.1 := trim_eq_self_of_plain _ (hc.fmtQ_plain _)
  have t2 : trim (' ' :: c.fmtQ p.2.1) = c.fmtQ p.2.1 := by
    rw [trim_cons_ws ' ' _ (by decide)]
    exact trim_eq_self_of_plain _ (hc.fmtQ_plain _)
  have t3 : trim (' ' :: c.fmtQ p.2.2) = c.fmtQ p.2.2 := by
    rw [trim_cons_ws ' ' _ (by decide)]
    exact trim_eq_self_of_plain _ (hc.fmtQ_plain _)
  simp [t1, t2, t3, hc.parseQ_fmtQ]

theorem takeWhile_append_stop (sep : Char) (A B : Line) (h : ∀ ch ∈ A, ch ≠ sep) :
    (A ++ sep :: B).takeWhile (fun ch => ch ≠ sep) = A := by
  induction A with
  | nil => simp [List.takeWhile_cons]
  | cons ch rest ih =>
      simp only [List.cons_append, List.takeWhile_cons]
      rw [ih (fun x hx => h x (List.mem_cons_of_mem ch hx))]
      simp [h ch (List.mem_cons_self ch rest)]

theorem dropWhile_append_stop (sep : Char) (A B : Line) (h : ∀ ch ∈ A, ch ≠ sep) :
    (A ++ sep :: B).dropWhile (fun ch => ch ≠ sep) = sep :: B := by
  induction A with
  | nil => simp [List.dropWhile_cons]
  | cons ch rest ih =>
      have hch : ch ≠ sep := h ch (List.mem_cons_self ch rest)
      simp only [List.cons_append, List.dropWhile_cons]
      rw [ih (fun x hx => h x (List.mem_cons_of_mem ch hx))]
      simp [hch]

theorem comma_not_mem_typeName (t : ElementTypes) : ∀ ch ∈ typeName t, ch ≠ ',' := by
  cases t <;> decide

/-- Reading back an element line written for integer connectivity. -/
theorem parseElemLine_core (c : Codec) (hc : CodecOK c) (t : ElementTypes)
    (z0 : ℤ) (zs : List ℤ) :
    parseElemLine c (typeName t ++ ',' :: ' ' :: commaJoin ((z0 :: zs).map c.fmtI))
      = some (t, z0 :: zs) := by
  simp only [parseElemLine]
  have hcomma : ¬ ((typeName t ++ ',' :: ' ' ::
      commaJoin ((z0 :: zs).map c.fmtI)).filter
        (fun ch => ch = ',')).length = 0 := by
    intro h0
    rw [List.length_eq_zero] at h0
    have hmem : ',' ∈ typeName t ++ ',' :: ' ' ::
        commaJoin ((z0 :: zs).map c.fmtI) :=
      List.mem_append.mpr (Or.inr (List.mem_cons_self _ _))
    have h1 := (List.filter_eq_nil_iff.mp h0) ',' hmem
    simp at h1
  rw [if_neg hcomma,
    takeWhile_append_stop ',' (typeName t) _ (comma_not_mem_typeName t),
    dropWhile_append_stop ',' (typeName t) _ (comma_not_mem_typeName t),
    elemTypeOfName_typeName t]
  have hpieces : splitOnChar ',' ((',' :: ' ' ::
      commaJoin ((z0 :: zs).map c.fmtI)).drop 1)
      = (z0 :: zs).map (fun z => ' ' :: c.fmtI z) := by
    rw [List.drop_one, List.tail_cons,
      splitOnChar_cons_of_ne ',' ' ' _ (by decide),
      show (z0 :: zs).map c.fmtI = c.fmtI z0 :: zs.map c.fmtI from rfl,
      splitOnChar_commaJoin _ _ ?hcomma2]
    case hcomma2 =>
      intro x hx
      rcases List.mem_cons.mp hx with rfl | hx
      · exact comma_not_mem_of_plain _ (hc.fmtI_plain _)
      · obtain ⟨m, _, hm⟩ := List.mem_map.mp hx
        rw [← hm]
        exact comma_not_mem_of_plain _ (hc.fmtI_plain _)
    simp
  rw [hpieces, mapM_map_eq_some (fun piece => c.parseI (trim piece))
    (fun z : ℤ => ' ' :: c.fmtI z) (fun z : ℤ => z) (z0 :: zs) ?hfield]
  case hfield =>
    intro a _
    show c.parseI (trim (' ' :: c.fmtI a)) = some a
    rw [trim_cons_ws ' ' _ (by decide), trim_eq_self_of_plain _ (hc.fmtI_plain _)]
    exact hc.parseI_fmtI _
  simp

/-- Reading back one written element line: the type is recovered through the
enum lookup and the connectivity as integers. -/
theorem parseElemLine_elemLine (c : Codec) (hc : CodecOK c)
    (e : ElementTypes × List ℕ) (hne : e.2 ≠ []) :
    parseElemLine c (elemLine c e)
      = some (e.1, e.2.map (fun n => (n : ℤ))) := by
  obtain ⟨t, conn⟩ := e
  cases conn with
  | nil => exact absurd rfl hne
  | cons n0 ns =>
  have hline : elemLine c (t, n0 :: ns)
      = typeName t ++ ',' :: ' ' ::
          commaJoin (((n0 : ℤ) :: ns.map (fun n => (n : ℤ))).map c.fmtI) := by
    simp [elemLine, List.map_map]
  rw [hline, parseElemLine_core c hc t (n0 : ℤ) (ns.map (fun n => (n : ℤ)))]
  simp

/-- Reading back one comma-separated field of a written row of floats. -/
theorem parse_field_commaJoin (c : Codec) (hc : CodecOK c) (qs : List ℚ)
    (idx : ℕ) (hidx : idx < qs.length) :
    ((splitOnChar ',' (commaJoin (qs.map c.fmtQ))).get? idx).bind
        (fun piece => c.parseQ (trim piece)) = some (qs.get ⟨idx, hidx⟩) := by
  cases qs with
  | nil => simp at hidx
  | cons q0 qrest =>
  rw [show (q0 :: qrest).map c.fmtQ = c.fmtQ q0 :: qrest.map c.fmtQ from rfl,
    splitOnChar_commaJoin _ _ ?hcj]
  case hcj =>
    intro x hx
    rcases List.mem_cons.mp hx with rfl | hx
    · exact comma_not_mem_of_plain _ (hc.fmtQ_plain _)
    · obtain ⟨m, _, hm⟩ := List.mem_map.mp hx
      rw [← hm]
      exact comma_not_mem_of_plain _ (hc.fmtQ_plain _)
  cases idx with
  | zero =>
      rw [show ((c.fmtQ q0 :: (qrest.map c.fmtQ).map
          (fun x => ' ' :: x)).get? 0) = some (c.fmtQ q0) from rfl]
      have t0 : trim (c.fmtQ q0) = c.fmtQ q0 := trim_eq_self_of_plain _ (hc.fmtQ_plain _)
      simp [t0, hc.parseQ_fmtQ]
  | succ j =>
      have hj : j < qrest.length := by simpa using Nat.lt_of_succ_lt_succ hidx
      rw [show ((c.fmtQ q0 :: (qrest.map c.fmtQ).map
            (fun x => ' ' :: x)).get? (j + 1))
          = ((qrest.map c.fmtQ).map (fun x => ' ' :: x)).get? j from rfl,
        List.get?_eq_getElem?, List.getElem?_map, List.getElem?_map,
        List.getElem?_eq_getElem hj]
      have t4 : trim (' ' :: c.fmtQ (qrest.get ⟨j, hj⟩)) = c.fmtQ (qrest.get ⟨j, hj⟩) := by
        rw [trim_cons_ws ' ' _ (by decide)]
        exact trim_eq_self_of_plain _ (hc.fmtQ_plain _)
      simp only [List.get_eq_getElem] at t4
      simp [t4, hc.parseQ_fmtQ, List.get_eq_getElem]

/-- For a list with pairwise-distinct images, `findIdx?` over the image list
finds exactly the position of a given member. -/
theorem findIdx_map_of_nodup {α β : Type} [DecidableEq β] (f : α → β) :
    ∀ (l : List α) (x : α), x ∈ l → (l.map f).Nodup →
      ∃ (j : ℕ) (hj : j < l.length), l.get ⟨j, hj⟩ = x ∧
        (l.map f).findIdx? (fun y => y = f x) = some j := by
  intro l
  induction l with
  | nil => intro x hmem _; simp at hmem
  | cons a as ih =>
      intro x hmem hnd
      rw [List.map_cons, List.nodup_cons] at hnd
      by_cases hax : a = x
      · subst hax
        exact ⟨0, by simp, rfl, by simp [List.findIdx?_cons]⟩
      · have hx : x ∈ as := by
          rcases List.mem_cons.mp hmem with rfl | hx
          · exact absurd rfl hax
          · exact hx
        have hfa : ¬ (f a = f x) := by
          intro he
          exact hnd.1 (he ▸ List.mem_map_of_mem f hx)
        obtain ⟨j, hj, hget, hfind⟩ := ih x hx hnd.2
        refine ⟨j + 1, by simp; omega, hget, ?_⟩
        rw [List.map_cons]
        have : List.findIdx? (fun y => y = f x) (f a :: as.map f)
            = (List.findIdx? (fun y => y = f x) (as.map f)).map (fun v => v + 1) := by
          simp [List.findIdx?_cons, hfa]
        rw [this, hfind]
        rfl

theorem getLine_file_block (A B : List Line) (c : Codec) (idx : ℤ) (fr : FrameData)
    (p0 : ℕ) (hp0 : p0 = A.length) (i j : ℕ) (hij : i = p0 + j)
    (hj : j < (frameLines c idx fr).length) :
    getLine (A ++ (frameLines c idx fr ++ B)) i = getLine (frameLines c idx fr) j := by
  rw [getLine_shift A _ i j (by omega), getLine_prefix _ _ j hj]

theorem frameDict_desc (c : Codec) (f pos : ℕ) (fr : FrameData) :
    frameDict c f pos fr kwDESCRIPTION = some (kwDESCRIPTION, pos + 4) := by
  simp +decide [frameDict, blockOverlay, updateP]

theorem frameDict_nodes (c : Codec) (f pos : ℕ) (fr : FrameData) :
    frameDict c f pos fr kwNODES
      = some (countLine kwNODES c fr.mesh.nodes.length, pos + 7) := by
  simp +decide [frameDict, blockOverlay, updateP]

theorem frameDict_elems (c : Codec) (f pos : ℕ) (fr : FrameData) :
    frameDict c f pos fr kwELEMENTS
      = some (countLine kwELEMENTS c fr.mesh.elements.length,
          pos + 9 + fr.mesh.nodes.length) := by
  simp +decide [frameDict, blockOverlay, updateP]

theorem frameDict_ntitles (c : Codec) (f pos : ℕ) (fr : FrameData) :
    frameDict c f pos fr kwNodeOutputTitles
      = some (countLine kwNodeOutputTitles c fr.nodeOutput.length,
          pos + 11 + fr.mesh.nodes.length + fr.mesh.elements.length) := by
  simp +decide [frameDict, blockOverlay, updateP]

theorem frameDict_nvalues (c : Codec) (f pos : ℕ) (fr : FrameData) :
    frameDict c f pos fr kwNodeOutputValues
      = some (countLine kwNodeOutputValues c
            (if 0 < fr.nodeOutput.length then fr.mesh.nodes.length else 0),
          pos + 13 + fr.mesh.nodes.length + fr.mesh.elements.length
            + fr.nodeOutput.length) := by
  simp +decide [frameDict, blockOverlay, updateP]

theorem frameDict_gtitles (c : Codec) (f pos : ℕ) (fr : FrameData) :
    frameDict c f pos fr kwGlobalOutputTitles
      = some (countLine kwGlobalOutputTitles c fr.globalOutput.length,
          pos + 15 + fr.mesh.nodes.length + fr.mesh.elements.length
            + fr.nodeOutput.length
            + (zipRows (fr.nodeOutput.map (fun x => x.2))).length) := by
  simp +decide [frameDict, blockOverlay, updateP]

theorem frameDict_gvalues (c : Codec) (f pos : ℕ) (fr : FrameData) :
    frameDict c f pos fr kwGlobalOutputValues
      = some (countLine kwGlobalOutputValues c fr.globalOutput.length,
          pos + 17 + fr.mesh.nodes.length + fr.mesh.elements.length
            + fr.nodeOutput.length
            + (zipRows (fr.nodeOutput.map (fun x => x.2))).length
            + fr.globalOutput.length) := by
  simp +decide [frameDict, blockOverlay, updateP]

/-- Reading the description back from a located clean frame block. -/
theorem read_desc (c : Codec) (o : ODB) (fr : FrameData)
    (hclean : FrameClean fr) (A B : List Line) (idx : ℤ) (f p0 : ℕ)
    (hfile : o.file = A ++ (frameLines c idx fr ++ B)) (hp0 : p0 = A.length)
    (hcur : o.currentFrame.toNat = f)
    (hptr : ∀ key ∈ frameKeys, o.pointers f key = frameDict c f p0 fr key) :
    o.getDescription = some fr.description := by
  have hD := hptr kwDESCRIPTION (by simp [frameKeys])
  rw [frameDict_desc] at hD
  rw [ODB.getDescription, hcur, hD]
  have hg : getLine o.file (p0 + 4) = fr.description := by
    rw [hfile, getLine_file_block A B c idx fr p0 hp0 (p0 + 4) 4 (by omega)
      (by rw [frameLines_length]; omega), frameLines_at_desc]
  simp only [Option.map_some']
  rw [hg, hclean.1.1]

/-- Reading the nodal coordinates back from a located clean frame block. -/
theorem read_nodes (c : Codec) (hc : CodecOK c) (o : ODB) (fr : FrameData)
    (A B : List Line) (idx : ℤ) (f p0 : ℕ)
    (hfile : o.file = A ++ (frameLines c idx fr ++ B)) (hp0 : p0 = A.length)
    (hcur : o.currentFrame.toNat = f)
    (hptr : ∀ key ∈ frameKeys, o.pointers f key = frameDict c f p0 fr key) :
    o.getNodes c = some fr.mesh.nodes := by
  have hN := hptr kwNODES (by simp [frameKeys])
  rw [frameDict_nodes] at hN
  have hcnt : parseCount c (countLine kwNODES c fr.mesh.nodes.length)
      = some ((fr.mesh.nodes.length : ℕ) : ℤ) :=
    parseCount_countLine c hc kwNODES _ (by decide)
  have htake : (takeLines o.file (p0 + 7) fr.mesh.nodes.length).mapM (parseNodeLine c)
      = some fr.mesh.nodes := by
    rw [takeLines,
      range_map_congr fr.mesh.nodes.length _
        (fun r => nodeLine c (fr.mesh.nodes.getD r (0, 0, 0))) ?hpt,
      range_map_getD_map fr.mesh.nodes (0, 0, 0) (nodeLine c),
      mapM_map_eq_some (parseNodeLine c) (nodeLine c) (fun p => p)
        fr.mesh.nodes (fun p _ => parseNodeLine_nodeLine c hc p)]
    case hpt =>
      intro r hr
      rw [hfile, getLine_file_block A B c idx fr p0 hp0 (p0 + 7 + r) (7 + r)
        (by omega) (by rw [frameLines_length]; omega),
        frameLines_at_node c idx fr r hr]
      simp [List.getElem?_eq_getElem hr]
    simp
  simp [ODB.getNodes, hcur, hN, hcnt]
  exact htake

/-- Reading the elements back from a located clean frame block. -/
theorem read_elems (c : Codec) (hc : CodecOK c) (o : ODB) (fr : FrameData)
    (hclean : FrameClean fr) (A B : List Line) (idx : ℤ) (f p0 : ℕ)
    (hfile : o.file = A ++ (frameLines c idx fr ++ B)) (hp0 : p0 = A.length)
    (hcur : o.currentFrame.toNat = f)
    (hptr : ∀ key ∈ frameKeys, o.pointers f key = frameDict c f p0 fr key) :
    o.getElements c
      = some (fr.mesh.elements.map
          (fun e => (e.1, e.2.map (fun n => (n : ℤ))))) := by
  have hE := hptr kwELEMENTS (by simp [frameKeys])
  rw [frameDict_elems] at hE
  have hcnt : parseCount c (countLine kwELEMENTS c fr.mesh.elements.length)
      = some ((fr.mesh.elements.length : ℕ) : ℤ) :=
    parseCount_countLine c hc kwELEMENTS _ (by decide)
  have htake : (takeLines o.file (p0 + 9 + fr.mesh.nodes.length)
        fr.mesh.elements.length).mapM (parseElemLine c)
      = some (fr.mesh.elements.map
          (fun e => (e.1, e.2.map (fun n => (n : ℤ))))) := by
    rw [takeLines,
      range_map_congr fr.mesh.elements.length _
        (fun r => elemLine c (fr.mesh.elements.getD r (.Line2, []))) ?hpt,
      range_map_getD_map fr.mesh.elements (.Line2, []) (elemLine c),
      mapM_map_eq_some (parseElemLine c) (elemLine c)
        (fun e => (e.1, e.2.map (fun n => (n : ℤ)))) fr.mesh.elements
        (fun e he => parseElemLine_elemLine c hc e (hclean.2.2.2.2.2 e he))]
    case hpt =>
      intro r hr
      rw [hfile, getLine_file_block A B c idx fr p0 hp0
        (p0 + 9 + fr.mesh.nodes.length + r) (9 + fr.mesh.nodes.length + r)
        (by omega) (by rw [frameLines_length]; omega),
        frameLines_at_elem c idx fr r hr]
      simp [List.getElem?_eq_getElem hr]
  conv_lhs => simp [ODB.getElements, hcur, hE, hcnt]
  exact htake

/-- Reading the node-output titles back from a located clean frame block. -/
theorem read_ntitles (c : Codec) (hc : CodecOK c) (o : ODB) (fr : FrameData)
    (hclean : FrameClean fr) (A B : List Line) (idx : ℤ) (f p0 : ℕ)
    (hfile : o.file = A ++ (frameLines c idx fr ++ B)) (hp0 : p0 = A.length)
    (hcur : o.currentFrame.toNat = f)
    (hptr : ∀ key ∈ frameKeys, o.pointers f key = frameDict c f p0 fr key) :
    o.getNodeOutputTitles c = some (fr.nodeOutput.map (fun x => x.1)) := by
  have hT := hptr kwNodeOutputTitles (by simp [frameKeys])
  rw [frameDict_ntitles] at hT
  have hcnt : parseCount c (countLine kwNodeOutputTitles c fr.nodeOutput.length)
      = some ((fr.nodeOutput.length : ℕ) : ℤ) :=
    parseCount_countLine c hc kwNodeOutputTitles _ (by decide)
  have htake : (takeLines o.file
        (p0 + 11 + fr.mesh.nodes.length + fr.mesh.elements.length)
        fr.nodeOutput.length).map trim
      = fr.nodeOutput.map (fun x => x.1) := by
    rw [takeLines, List.map_map]
    show (List.range fr.nodeOutput.length).map
        (fun r => trim (getLine o.file
          (p0 + 11 + fr.mesh.nodes.length + fr.mesh.elements.length + r)))
      = fr.nodeOutput.map (fun x => x.1)
    rw [range_map_congr fr.nodeOutput.length _
        (fun r => (fr.nodeOutput.getD r ([], [])).1) ?hpt,
      range_map_getD_map fr.nodeOutput ([], []) (fun x => x.1)]
    case hpt =>
      intro r hr
      rw [hfile, getLine_file_block A B c idx fr p0 hp0
        (p0 + 11 + fr.mesh.nodes.length + fr.mesh.elements.length + r)
        (11 + fr.mesh.nodes.length + fr.mesh.elements.length + r)
        (by omega) (by rw [frameLines_length]; omega),
        frameLines_at_ntitle c idx fr r hr,
        (hclean.2.1 _ (fr.nodeOutput.get_mem r hr)).1.1]
      simp [List.getElem?_eq_getElem hr]
  simp [ODB.getNodeOutputTitles, hcur, hT, hcnt, htake]

/-- Reading the global-output titles back from a located clean frame block. -/
theorem read_gtitles (c : Codec) (hc : CodecOK c) (o : ODB) (fr : FrameData)
    (hclean : FrameClean fr) (A B : List Line) (idx : ℤ) (f p0 : ℕ)
    (hfile : o.file = A ++ (frameLines c idx fr ++ B)) (hp0 : p0 = A.length)
    (hcur : o.currentFrame.toNat = f)
    (hptr : ∀ key ∈ frameKeys, o.pointers f key = frameDict c f p0 fr key) :
    o.getGlobalOutputTitles c = some (fr.globalOutput.map (fun x => x.1)) := by
  have hT := hptr kwGlobalOutputTitles (by simp [frameKeys])
  rw [frameDict_gtitles] at hT
  have hcnt : parseCount c (countLine kwGlobalOutputTitles c fr.globalOutput.length)
      = some ((fr.globalOutput.length : ℕ) : ℤ) :=
    parseCount_countLine c hc kwGlobalOutputTitles _ (by decide)
  have htake : (takeLines o.file
        (p0 + 15 + fr.mesh.nodes.length + fr.mesh.elements.length
          + fr.nodeOutput.length
          + (zipRows (fr.nodeOutput.map (fun x => x.2))).length)
        fr.globalOutput.length).map trim
      = fr.globalOutput.map (fun x => x.1) := by
    rw [takeLines, List.map_map]
    show (List.range fr.globalOutput.length).map
        (fun r => trim (getLine o.file
          (p0 + 15 + fr.mesh.nodes.length + fr.mesh.elements.length
            + fr.nodeOutput.length
            + (zipRows (fr.nodeOutput.map (fun x => x.2))).length + r)))
      = fr.globalOutput.map (fun x => x.1)
    rw [range_map_congr fr.globalOutput.length _
        (fun r => (fr.globalOutput.getD r ([], 0)).1) ?hpt,
      range_map_getD_map fr.globalOutput ([], 0) (fun x => x.1)]
    case hpt =>
      intro r hr
      rw [hfile, getLine_file_block A B c idx fr p0 hp0
        (p0 + 15 + fr.mesh.nodes.length + fr.mesh.elements.length
          + fr.nodeOutput.length
          + (zipRows (fr.nodeOutput.map (fun x => x.2))).length + r)
        (15 + fr.mesh.nodes.length + fr.mesh.elements.length + fr.nodeOutput.length
          + (zipRows (fr.nodeOutput.map (fun x => x.2))).length + r)
        (by omega) (by rw [frameLines_length]; omega),
        frameLines_at_gtitle c idx fr r hr,
        (hclean.2.2.1 _ (fr.globalOutput.get_mem r hr)).1]
      simp [List.getElem?_eq_getElem hr]
  simp [ODB.getGlobalOutputTitles, hcur, hT, hcnt, htake]

theorem minLen_const (ls : List (List ℚ)) (n : ℕ) (hne : ls ≠ [])
    (h : ∀ l ∈ ls, l.length = n) : minLen ls = n := by
  cases ls with
  | nil => exact absurd rfl hne
  | cons l0 rest =>
      have key : ∀ (acc : List (List ℚ)), (∀ l ∈ acc, l.length = n) →
          acc.foldl (fun a x => min a x.length) n = n := by
        intro acc
        induction acc with
        | nil => intro _; rfl
        | cons y ys ih =>
            intro hy
            rw [List.foldl_cons, hy y (List.mem_cons_self y ys), min_self]
            exact ih (fun l hl => hy l (List.mem_cons_of_mem y hl))
      show rest.foldl (fun a x => min a x.length) l0.length = n
      rw [h l0 (List.mem_cons_self l0 rest)]
      exact key rest (fun l hl => h l (List.mem_cons_of_mem l0 hl))

theorem zipRows_length (ls : List (List ℚ)) : (zipRows ls).length = minLen ls := by
  simp [zipRows]

theorem zipRows_get (ls : List (List ℚ)) (r : ℕ) (hr : r < (zipRows ls).length) :
    (zipRows ls).get ⟨r, hr⟩ = ls.map (fun l => l.getD r 0) := by
  unfold zipRows at hr ⊢
  simp only [List.get_eq_getElem, List.getElem_map, List.getElem_range]

/-- Reading one node-output value column back from a located clean frame
block. -/
theorem read_nvalues (c : Codec) (hc : CodecOK c) (o : ODB) (fr : FrameData)
    (hclean : FrameClean fr) (A B : List Line) (idx : ℤ) (f p0 : ℕ)
    (hfile : o.file = A ++ (frameLines c idx fr ++ B)) (hp0 : p0 = A.length)
    (hcur : o.currentFrame.toNat = f)
    (hptr : ∀ key ∈ frameKeys, o.pointers f key = frameDict c f p0 fr key)
    (x : Line × List ℚ) (hx : x ∈ fr.nodeOutput) :
    o.getNodeOutputValues c x.1 = some x.2 := by
  have htitles : o.getNodeOutputTitles c = some (fr.nodeOutput.map (fun y => y.1)) :=
    read_ntitles c hc o fr hclean A B idx f p0 hfile hp0 hcur hptr
  obtain ⟨j, hj, hgetj, hfind⟩ := findIdx_map_of_nodup
    (fun y : Line × List ℚ => y.1) fr.nodeOutput x hx hclean.2.2.2.1
  have hV := hptr kwNodeOutputValues (by simp [frameKeys])
  rw [frameDict_nvalues] at hV
  have hntpos : 0 < fr.nodeOutput.length := List.length_pos.mpr (List.ne_nil_of_mem hx)
  rw [if_pos hntpos] at hV
  have hcnt : parseCount c (countLine kwNodeOutputValues c fr.mesh.nodes.length)
      = some ((fr.mesh.nodes.length : ℕ) : ℤ) :=
    parseCount_countLine c hc kwNodeOutputValues _ (by decide)
  have hlsne : fr.nodeOutput.map (fun y => y.2) ≠ [] := by
    intro h0
    rw [List.map_eq_nil] at h0
    rw [h0] at hx
    exact absurd hx (List.not_mem_nil x)
  have hnv : (zipRows (fr.nodeOutput.map (fun y => y.2))).length
      = fr.mesh.nodes.length := by
    rw [zipRows_length]
    refine minLen_const _ _ hlsne ?_
    intro l hl
    obtain ⟨y, hy, hye⟩ := List.mem_map.mp hl
    rw [← hye]
    exact (hclean.2.1 y hy).2
  have hxlen : x.2.length = fr.mesh.nodes.length := (hclean.2.1 x hx).2
  have hmapM : (takeLines o.file
        (p0 + 13 + fr.mesh.nodes.length + fr.mesh.elements.length
          + fr.nodeOutput.length) fr.mesh.nodes.length).mapM
        (fun row => ((splitOnChar ',' row)[j]?).bind
          (fun piece => c.parseQ (trim piece)))
      = some x.2 := by
    rw [takeLines,
      mapM_map_eq_some (fun row => ((splitOnChar ',' row)[j]?).bind
          (fun piece => c.parseQ (trim piece)))
        (fun r => getLine o.file
          (p0 + 13 + fr.mesh.nodes.length + fr.mesh.elements.length
            + fr.nodeOutput.length + r))
        (fun r => x.2.getD r 0) (List.range fr.mesh.nodes.length) ?hrow]
    case hrow =>
      intro r hrmem
      have hr : r < fr.mesh.nodes.length := List.mem_range.mp hrmem
      have hrz : r < (zipRows (fr.nodeOutput.map (fun y => y.2))).length := by
        rw [hnv]
        exact hr
      show ((splitOnChar ',' (getLine o.file
          (p0 + 13 + fr.mesh.nodes.length + fr.mesh.elements.length
            + fr.nodeOutput.length + r)))[j]?).bind
          (fun piece => c.parseQ (trim piece)) = some (x.2.getD r 0)
      rw [← List.get?_eq_getElem?]
      rw [hfile, getLine_file_block A B c idx fr p0 hp0
        (p0 + 13 + fr.mesh.nodes.length + fr.mesh.elements.length
          + fr.nodeOutput.length + r)
        (13 + fr.mesh.nodes.length + fr.mesh.elements.length
          + fr.nodeOutput.length + r)
        (by omega) (by rw [frameLines_length]; omega),
        frameLines_at_nvalue c idx fr r hrz, zipRows_get _ r hrz]
      have hjq : j < ((fr.nodeOutput.map (fun y => y.2)).map
          (fun l => l.getD r 0)).length := by
        simpa using hj
      rw [parse_field_commaJoin c hc _ j hjq]
      congr 1
      rw [List.get_eq_getElem]
      simp only [List.getElem_map]
      rw [← hgetj]
      simp [List.get_eq_getElem]
    rw [show (List.range fr.mesh.nodes.length).map (fun r => x.2.getD r 0)
        = (List.range x.2.length).map (fun r => x.2.getD r 0) from by rw [hxlen]]
    rw [range_map_getD_map x.2 0 (fun q => q)]
    simp
  conv_lhs => simp [ODB.getNodeOutputValues, htitles, hfind, hcur, hV, hcnt]
  exact hmapM

/-- Reading one global-output value back from a located clean frame block. -/
theorem read_gvalues (c : Codec) (hc : CodecOK c) (o : ODB) (fr : FrameData)
    (hclean : FrameClean fr) (A B : List Line) (idx : ℤ) (f p0 : ℕ)
    (hfile : o.file = A ++ (frameLines c idx fr ++ B)) (hp0 : p0 = A.length)
    (hcur : o.currentFrame.toNat = f)
    (hptr : ∀ key ∈ frameKeys, o.pointers f key = frameDict c f p0 fr key)
    (x : Line × ℚ) (hx : x ∈ fr.globalOutput) :
    o.getGlobalOutputValues c x.1 = some x.2 := by
  have htitles : o.getGlobalOutputTitles c
      = some (fr.globalOutput.map (fun y => y.1)) :=
    read_gtitles c hc o fr hclean A B idx f p0 hfile hp0 hcur hptr
  obtain ⟨j, hj, hgetj, hfind⟩ := findIdx_map_of_nodup
    (fun y : Line × ℚ => y.1) fr.globalOutput x hx hclean.2.2.2.2.1
  have hV := hptr kwGlobalOutputValues (by simp [frameKeys])
  rw [frameDict_gvalues] at hV
  have hcnt : parseCount c (countLine kwGlobalOutputValues c fr.globalOutput.length)
      = some ((fr.globalOutput.length : ℕ) : ℤ) :=
    parseCount_countLine c hc kwGlobalOutputValues _ (by decide)
  have hline : c.parseQ (trim (getLine o.file
      (p0 + 17 + fr.mesh.nodes.length + fr.mesh.elements.length
        + fr.nodeOutput.length
        + (zipRows (fr.nodeOutput.map (fun y => y.2))).length
        + fr.globalOutput.length + j)))
      = some x.2 := by
    rw [hfile, getLine_file_block A B c idx fr p0 hp0
      (p0 + 17 + fr.mesh.nodes.length + fr.mesh.elements.length
        + fr.nodeOutput.length
        + (zipRows (fr.nodeOutput.map (fun y => y.2))).length
        + fr.globalOutput.length + j)
      (17 + fr.mesh.nodes.length + fr.mesh.elements.length + fr.nodeOutput.length
        + (zipRows (fr.nodeOutput.map (fun y => y.2))).length
        + fr.globalOutput.length + j)
      (by omega) (by rw [frameLines_length]; omega),
      frameLines_at_gvalue c idx fr j hj,
      trim_eq_self_of_plain _ (hc.fmtQ_plain _), hc.parseQ_fmtQ]
    rw [hgetj]
  conv_lhs => simp [ODB.getGlobalOutputValues, htitles, hfind, hcur, hV, hcnt, hj, hline]

theorem blocksFrom_append (c : Codec) (xs ys : List FrameData) :
    ∀ k, blocksFrom c k (xs ++ ys)
      = blocksFrom c k xs ++ blocksFrom c (k + xs.length) ys := by
  induction xs with
  | nil => intro k; simp [blocksFrom]
  | cons x xs ih =>
      intro k
      rw [List.cons_append,
        show blocksFrom c k (x :: (xs ++ ys))
          = frameLines c (k : ℤ) x ++ blocksFrom c (k + 1) (xs ++ ys) from rfl,
        ih (k + 1),
        show blocksFrom c k (x :: xs)
          = frameLines c (k : ℤ) x ++ blocksFrom c (k + 1) xs from rfl,
        List.append_assoc]
      have harith : k + 1 + xs.length = k + (x :: xs).length := by simp; omega
      rw [harith]

/-- Splitting the written blocks around the `j`-th frame block. -/
theorem blocksFrom_decompose (c : Codec) (frs : List FrameData) (j : ℕ)
    (hj : j < frs.length) :
    blocksFrom c 0 frs
      = blocksFrom c 0 (frs.take j)
        ++ (frameLines c (j : ℤ) (frs.get ⟨j, hj⟩)
          ++ blocksFrom c (j + 1) (frs.drop (j + 1))) := by
  conv_lhs => rw [← List.take_append_drop j frs]
  rw [blocksFrom_append c (frs.take j) (frs.drop j) 0,
    List.drop_eq_getElem_cons hj,
    show ∀ (k : ℕ) (e : FrameData) (rest : List FrameData),
      blocksFrom c k (e :: rest)
        = frameLines c (k : ℤ) e ++ blocksFrom c (k + 1) rest from fun _ _ _ => rfl]
  have hlen : (frs.take j).length = j := by
    rw [List.length_take]
    omega
  rw [hlen]
  simp [List.get_eq_getElem]

end ODBM

end FEAPACK

namespace FEAPACK

/-! ### Degree-of-freedom enumeration, from `MDB._buildDOFs` in
`feapack/model/mdb.py`.

The boolean activity table and the id table are modelled as functions
`ℕ → ℕ → _` updated functionally; the source stores them as `m × n` nested
lists, with the first index a mesh-node index and the second a DOF
component. -/

namespace DOF

/-- A boundary condition as seen by `_buildDOFs`: the name of its region (a
node set) and its constrained components (`BoundaryCondition.dofs` in
`feapack/model/boundaryCondition.py`, the indices of the prescribed entries
among `(u, v, w)`). -/
structure BC where
  region : String
  dofs : List ℕ

/-- The part of the model database that `_buildDOFs` reads: node count `m`,
modeling-space dimension `n`, the node sets, and the boundary conditions. -/
structure Model where
  m : ℕ
  n : ℕ
  nodeSets : String → List ℕ
  boundaryConditions : List BC

/-- Functional update of a two-index table at one `(i, j)` cell, modelling
the assignment `table[i][j] = v`. -/
def update2 {α : Type} (f : ℕ → ℕ → α) (i j : ℕ) (v : α) : ℕ → ℕ → α :=
  fun a b => if a = i ∧ b = j then v else f a b

/-- Inner loop of the activity-table construction: for one constrained
component, mark every node of the region inactive
(`tableActive[nodeIndex][dof] = False`). -/
def markNodes (dof : ℕ) (nodes : List ℕ) (tbl : ℕ → ℕ → Bool) : ℕ → ℕ → Bool :=
  nodes.foldl (fun t nodeIndex => update2 t nodeIndex dof false) tbl

/-- Middle loop: for one boundary condition, process each constrained
component, skipping components outside the modeling space
(`if 0 <= dof < n`; the lower bound is automatic for `ℕ`). -/
def markBC (md : Model) (tbl : ℕ → ℕ → Bool) (bc : BC) : ℕ → ℕ → Bool :=
  bc.dofs.foldl
    (fun t dof => if dof < md.n then markNodes dof (md.nodeSets bc.region) t else t) tbl

/-- The table of active/inactive DOFs built by `_buildDOFs`: all cells start
`True` and the boundary-condition loops mark cells `False`. -/
def tableActive (md : Model) : ℕ → ℕ → Bool :=
  md.boundaryConditions.foldl (markBC md) (fun _ _ => true)

/-- One step of the enumeration loop of `_buildDOFs`: the state is
`(activeDOFCount, inactiveDOFCount, tableDOFs)` and the processed pair is
`(i, j)`. -/
def enumStep (tbl : ℕ → ℕ → Bool) (st : ℕ × ℕ × (ℕ → ℕ → ℕ)) (p : ℕ × ℕ) :
    ℕ × ℕ × (ℕ → ℕ → ℕ) :=
  if tbl p.1 p.2 then (st.1 + 1, st.2.1, update2 st.2.2 p.1 p.2 st.1)
  else (st.1, st.2.1 + 1, update2 st.2.2 p.1 p.2 st.2.1)

/-- The node/component pairs walked by the enumeration loops
(`for i in range(m): for j in range(n)`), in that order. -/
def dofPairs (md : Model) : List (ℕ × ℕ) :=
  (List.range md.m) ×ˢ (List.range md.n)

/-- The enumeration fold of `_buildDOFs`, starting from zero counters. -/
def enumFold (md : Model) : ℕ × ℕ × (ℕ → ℕ → ℕ) :=
  (dofPairs md).foldl (enumStep (tableActive md)) (0, 0, fun _ _ => 0)

/-- Total number of active DOFs (`mesh._activeDOFCount`). -/
def activeDOFCount (md : Model) : ℕ := (enumFold md).1

/-- Total number of inactive DOFs (`mesh._inactiveDOFCount`). -/
def inactiveDOFCount (md : Model) : ℕ := (enumFold md).2.1

/-- The table of dense global ids assigned by the enumeration loop. -/
def tableDOFs (md : Model) : ℕ → ℕ → ℕ := (enumFold md).2.2

/-- Node-wise active local DOFs (`nodeWiseActiveLocalDOFs` in the source):
the components `dof < n` whose table cell is active, in order. -/
def nodeWiseActiveLocalDOFs (md : Model) (node : ℕ) : List ℕ :=
  (List.range md.n).filter (fun dof => tableActive md node dof)

/-- Node-wise inactive local DOFs (`nodeWiseInactiveLocalDOFs`). -/
def nodeWiseInactiveLocalDOFs (md : Model) (node : ℕ) : List ℕ :=
  (List.range md.n).filter (fun dof => ! tableActive md node dof)

/-- Node-wise active global DOFs (`nodeWiseActiveGlobalDOFs`). -/
def nodeWiseActiveGlobalDOFs (md : Model) (node : ℕ) : List ℕ :=
  (nodeWiseActiveLocalDOFs md node).map (tableDOFs md node)

/-- Node-wise inactive global DOFs (`nodeWiseInactiveGlobalDOFs`). -/
def nodeWiseInactiveGlobalDOFs (md : Model) (node : ℕ) : List ℕ :=
  (nodeWiseInactiveLocalDOFs md node).map (tableDOFs md node)

theorem markNodes_eq_false_iff (dof : ℕ) (nodes : List ℕ) (tbl : ℕ → ℕ → Bool)
    (a b : ℕ) :
    markNodes dof nodes tbl a b = false ↔ (a ∈ nodes ∧ b = dof) ∨ tbl a b = false := by
  induction nodes generalizing tbl with
  | nil => simp [markNodes]
  | cons x xs ih =>
      simp only [markNodes, List.foldl_cons] at *
      rw [ih]
      constructor
      · rintro (⟨hx, rfl⟩ | h)
        · exact Or.inl ⟨List.mem_cons_of_mem x hx, rfl⟩
        · by_cases hab : a = x ∧ b = dof
          · exact Or.inl ⟨by simp [hab.1], hab.2⟩
          · exact Or.inr (by simpa [update2, hab] using h)
      · rintro (⟨hx, rfl⟩ | h)
        · rcases List.mem_cons.mp hx with rfl | hx
          · exact Or.inr (by simp [update2])
          · exact Or.inl ⟨hx, rfl⟩
        · by_cases hab : a = x ∧ b = dof
          · exact Or.inr (by simp [update2, hab])
          · exact Or.inr (by simpa [update2, hab] using h)

theorem markBC_eq_false_iff (md : Model) (bc : BC) (tbl : ℕ → ℕ → Bool) (a b : ℕ) :
    markBC md tbl bc a b = false ↔
      (∃ dof ∈ bc.dofs, dof < md.n ∧ a ∈ md.nodeSets bc.region ∧ b = dof) ∨
        tbl a b = false := by
  have key : ∀ (ds : List ℕ) (tbl : ℕ → ℕ → Bool),
      (ds.foldl
          (fun t dof => if dof < md.n then markNodes dof (md.nodeSets bc.region) t else t)
          tbl) a b = false ↔
        (∃ dof ∈ ds, dof < md.n ∧ a ∈ md.nodeSets bc.region ∧ b = dof) ∨
          tbl a b = false := by
    intro ds
    induction ds with
    | nil => simp
    | cons d ds ih =>
        intro tbl
        simp only [List.foldl_cons]
        rw [ih]
        by_cases hd : d < md.n
        · simp only [if_pos hd, markNodes_eq_false_iff]
          constructor
          · rintro (h | ⟨ha, rfl⟩ | h)
            · obtain ⟨dof, h1, h2⟩ := h
              exact Or.inl ⟨dof, List.mem_cons_of_mem d h1, h2⟩
            · exact Or.inl ⟨b, List.mem_cons_self b ds, hd, ha, rfl⟩
            · exact Or.inr h
          · rintro (⟨dof, hmem, hlt, ha, rfl⟩ | h)
            · rcases List.mem_cons.mp hmem with rfl | hmem
              · exact Or.inr (Or.inl ⟨ha, rfl⟩)
              · exact Or.inl ⟨b, hmem, hlt, ha, rfl⟩
            · exact Or.inr (Or.inr h)
        · simp only [if_neg hd]
          constructor
          · rintro (⟨dof, h1, h2⟩ | h)
            · exact Or.inl ⟨dof, List.mem_cons_of_mem d h1, h2⟩
            · exact Or.inr h
          · rintro (⟨dof, hmem, hlt, ha, rfl⟩ | h)
            · rcases List.mem_cons.mp hmem with rfl | hmem
              · exact absurd hlt hd
              · exact Or.inl ⟨b, hmem, hlt, ha, rfl⟩
            · exact Or.inr h
  exact key bc.dofs tbl

theorem tableActive_eq_false_iff (md : Model) (a b : ℕ) :
    tableActive md a b = false ↔
      ∃ bc ∈ md.boundaryConditions, b ∈ bc.dofs ∧ b < md.n ∧
        a ∈ md.nodeSets bc.region := by
  have key : ∀ (bcs : List BC) (tbl : ℕ → ℕ → Bool),
      (bcs.foldl (markBC md) tbl) a b = false ↔
        (∃ bc ∈ bcs, b ∈ bc.dofs ∧ b < md.n ∧ a ∈ md.nodeSets bc.region) ∨
          tbl a b = false := by
    intro bcs
    induction bcs with
    | nil => simp
    | cons bc bcs ih =>
        intro tbl
        simp only [List.foldl_cons]
        rw [ih, markBC_eq_false_iff]
        constructor
        · rintro (⟨bc', h1, h2⟩ | ⟨dof, hmem, hlt, ha, rfl⟩ | h)
          · exact Or.inl ⟨bc', List.mem_cons_of_mem bc h1, h2⟩
          · exact Or.inl ⟨bc, List.mem_cons_self bc bcs, hmem, hlt, ha⟩
          · exact Or.inr h
        · rintro (⟨bc', hmem, hd, hlt, ha⟩ | h)
          · rcases List.mem_cons.mp hmem with rfl | hmem
            · exact Or.inr (Or.inl ⟨b, hd, hlt, ha, rfl⟩)
            · exact Or.inl ⟨bc', hmem, hd, hlt, ha⟩
          · exact Or.inr (Or.inr h)
  rw [tableActive, key]
  simp

theorem foldl_enumStep_apply_of_not_mem (tbl : ℕ → ℕ → Bool) (ps : List (ℕ × ℕ))
    (st : ℕ × ℕ × (ℕ → ℕ → ℕ)) (q : ℕ × ℕ) (hq : q ∉ ps) :
    (ps.foldl (enumStep tbl) st).2.2 q.1 q.2 = st.2.2 q.1 q.2 := by
  induction ps generalizing st with
  | nil => rfl
  | cons p ps ih =>
      have hqp : q ≠ p := fun h => hq (h ▸ List.mem_cons_self p ps)
      have hq' : q ∉ ps := fun h => hq (List.mem_cons_of_mem p h)
      have hcell : ¬(q.1 = p.1 ∧ q.2 = p.2) := by
        intro h
        exact hqp (Prod.ext h.1 h.2)
      rw [List.foldl_cons, ih _ hq']
      unfold enumStep
      by_cases h : tbl p.1 p.2 <;> simp [h, update2, hcell]

theorem enum_spec (tbl : ℕ → ℕ → Bool) (ps : List (ℕ × ℕ)) (hnd : ps.Nodup) :
    ∀ (a b : ℕ) (f : ℕ → ℕ → ℕ),
      (ps.foldl (enumStep tbl) (a, b, f)).1
          = a + (ps.filter (fun p => tbl p.1 p.2)).length ∧
      (ps.foldl (enumStep tbl) (a, b, f)).2.1
          = b + (ps.filter (fun p => ! tbl p.1 p.2)).length ∧
      ((ps.filter (fun p => tbl p.1 p.2)).map
          (fun p => (ps.foldl (enumStep tbl) (a, b, f)).2.2 p.1 p.2))
        = List.range' a (ps.filter (fun p => tbl p.1 p.2)).length ∧
      ((ps.filter (fun p => ! tbl p.1 p.2)).map
          (fun p => (ps.foldl (enumStep tbl) (a, b, f)).2.2 p.1 p.2))
        = List.range' b (ps.filter (fun p => ! tbl p.1 p.2)).length := by
  induction ps with
  | nil =>
      intro a b f
      simp
  | cons p ps ih =>
      intro a b f
      obtain ⟨hp, hnd'⟩ := List.nodup_cons.mp hnd
      by_cases h : tbl p.1 p.2
      · have hstep : enumStep tbl (a, b, f) p = (a + 1, b, update2 f p.1 p.2 a) := by
          simp [enumStep, h]
        obtain ⟨ih1, ih2, ih3, ih4⟩ := ih hnd' (a + 1) b (update2 f p.1 p.2 a)
        have hself : (ps.foldl (enumStep tbl) (a + 1, b, update2 f p.1 p.2 a)).2.2 p.1 p.2
            = a := by
          rw [foldl_enumStep_apply_of_not_mem tbl ps _ p hp]
          simp [update2]
        refine ⟨?_, ?_, ?_, ?_⟩
        · rw [List.foldl_cons, hstep, ih1]
          simp [List.filter_cons, h]
          omega
        · rw [List.foldl_cons, hstep, ih2]
          simp [List.filter_cons, h]
        · rw [List.foldl_cons, hstep]
          simp [List.filter_cons, h, hself, ih3, List.range'_succ]
        · rw [List.foldl_cons, hstep]
          simpa [List.filter_cons, h] using ih4
      · have hb : tbl p.1 p.2 = false := Bool.not_eq_true _ |>.mp h
        have hstep : enumStep tbl (a, b, f) p = (a, b + 1, update2 f p.1 p.2 b) := by
          simp [enumStep, hb]
        obtain ⟨ih1, ih2, ih3, ih4⟩ := ih hnd' a (b + 1) (update2 f p.1 p.2 b)
        have hself : (ps.foldl (enumStep tbl) (a, b + 1, update2 f p.1 p.2 b)).2.2 p.1 p.2
            = b := by
          rw [foldl_enumStep_apply_of_not_mem tbl ps _ p hp]
          simp [update2]
        refine ⟨?_, ?_, ?_, ?_⟩
        · rw [List.foldl_cons, hstep, ih1]
          simp [List.filter_cons, hb]
        · rw [List.foldl_cons, hstep, ih2]
          simp [List.filter_cons, hb]
          omega
        · rw [List.foldl_cons, hstep]
          simpa [List.filter_cons, hb] using ih3
        · rw [List.foldl_cons, hstep]
          simp [List.filter_cons, hb, hself, ih4, List.range'_succ]

theorem dofPairs_nodup (md : Model) : (dofPairs md).Nodup :=
  (List.nodup_range md.m).product (List.nodup_range md.n)

theorem tableActive_eq_true_iff (md : Model) (a b : ℕ) :
    tableActive md a b = true ↔
      ¬ ∃ bc ∈ md.boundaryConditions, b ∈ bc.dofs ∧ b < md.n ∧
        a ∈ md.nodeSets bc.region := by
  rw [← tableActive_eq_false_iff md a b]
  cases h : tableActive md a b <;> simp [h]

end DOF

/-- Claim C2.  After `MDB._buildDOFs`: (i) for every node and every component
`d < n`, the DOF `(node, d)` lands in exactly one of the node's active or
inactive local-DOF lists; (ii) it is inactive iff some boundary condition
whose region node set contains the node prescribes component `d`;
(iii) walking nodes in index order and components in order, the active DOFs
receive the consecutive global ids `0 … activeDOFCount − 1` while the
inactive DOFs independently receive `0 … inactiveDOFCount − 1`.
The hypothesis is the validator precondition that every boundary-condition
region index is a valid node index. -/
theorem C2_buildDOFs (md : DOF.Model)
    (hvalid : ∀ bc ∈ md.boundaryConditions, ∀ i ∈ md.nodeSets bc.region, i < md.m) :
    (∀ node d, node < md.m → d < md.n →
      ((d ∈ DOF.nodeWiseActiveLocalDOFs md node ∧
          d ∉ DOF.nodeWiseInactiveLocalDOFs md node) ∨
       (d ∉ DOF.nodeWiseActiveLocalDOFs md node ∧
          d ∈ DOF.nodeWiseInactiveLocalDOFs md node))) ∧
    (∀ node d, node < md.m → d < md.n →
      (d ∈ DOF.nodeWiseInactiveLocalDOFs md node ↔
        ∃ bc ∈ md.boundaryConditions, d ∈ bc.dofs ∧
          node ∈ md.nodeSets bc.region)) ∧
    ((DOF.dofPairs md).filter (fun p => DOF.tableActive md p.1 p.2)).map
        (fun p => DOF.tableDOFs md p.1 p.2) = List.range (DOF.activeDOFCount md) ∧
    ((DOF.dofPairs md).filter (fun p => ! DOF.tableActive md p.1 p.2)).map
        (fun p => DOF.tableDOFs md p.1 p.2) = List.range (DOF.inactiveDOFCount md) := by
  clear hvalid
  have hspec := DOF.enum_spec (DOF.tableActive md) (DOF.dofPairs md)
      (DOF.dofPairs_nodup md) 0 0 (fun _ _ => 0)
  obtain ⟨h1, h2, h3, h4⟩ := hspec
  refine ⟨?_, ?_, ?_, ?_⟩
  · intro node d _ hd
    by_cases h : DOF.tableActive md node d
    · exact Or.inl ⟨by simp [DOF.nodeWiseActiveLocalDOFs, List.mem_filter,
        List.mem_range, hd, h],
        by simp [DOF.nodeWiseInactiveLocalDOFs, List.mem_filter, h]⟩
    · exact Or.inr ⟨by simp [DOF.nodeWiseActiveLocalDOFs, List.mem_filter, h],
        by simp [DOF.nodeWiseInactiveLocalDOFs, List.mem_filter, List.mem_range,
          hd, h]⟩
  · intro node d _ hd
    have : d ∈ DOF.nodeWiseInactiveLocalDOFs md node ↔
        DOF.tableActive md node d = false := by
      simp [DOF.nodeWiseInactiveLocalDOFs, List.mem_filter, List.mem_range, hd]
    rw [this, DOF.tableActive_eq_false_iff]
    constructor
    · rintro ⟨bc, hbc, hdd, _, hnode⟩
      exact ⟨bc, hbc, hdd, hnode⟩
    · rintro ⟨bc, hbc, hdd, hnode⟩
      exact ⟨bc, hbc, hdd, hd, hnode⟩
  · rw [DOF.tableDOFs, DOF.activeDOFCount, DOF.enumFold, h3, h1]
    rw [List.range_eq_range']
    simp
  · rw [DOF.tableDOFs, DOF.inactiveDOFCount, DOF.enumFold, h4, h2]
    rw [List.range_eq_range']
    simp

/-- A concrete two-node, two-component model with one boundary condition
fixing component 0 of node 1, used to witness the DOF-enumeration theorem. -/
def witnessDOFModel : DOF.Model where
  m := 2
  n := 2
  nodeSets := fun _ => [1]
  boundaryConditions := [⟨"fix", [0]⟩]

/-- Claim C2, witness: the enumeration theorem instantiated at
`witnessDOFModel`, whose boundary condition covers only valid node indices. -/
theorem C2_buildDOFs_witness :
    (∀ node d, node < witnessDOFModel.m → d < witnessDOFModel.n →
      ((d ∈ DOF.nodeWiseActiveLocalDOFs witnessDOFModel node ∧
          d ∉ DOF.nodeWiseInactiveLocalDOFs witnessDOFModel node) ∨
       (d ∉ DOF.nodeWiseActiveLocalDOFs witnessDOFModel node ∧
          d ∈ DOF.nodeWiseInactiveLocalDOFs witnessDOFModel node))) ∧
    (∀ node d, node < witnessDOFModel.m → d < witnessDOFModel.n →
      (d ∈ DOF.nodeWiseInactiveLocalDOFs witnessDOFModel node ↔
        ∃ bc ∈ witnessDOFModel.boundaryConditions, d ∈ bc.dofs ∧
          node ∈ witnessDOFModel.nodeSets bc.region)) ∧
    ((DOF.dofPairs witnessDOFModel).filter
        (fun p => DOF.tableActive witnessDOFModel p.1 p.2)).map
        (fun p => DOF.tableDOFs witnessDOFModel p.1 p.2)
      = List.range (DOF.activeDOFCount witnessDOFModel) ∧
    ((DOF.dofPairs witnessDOFModel).filter
        (fun p => ! DOF.tableActive witnessDOFModel p.1 p.2)).map
        (fun p => DOF.tableDOFs witnessDOFModel p.1 p.2)
      = List.range (DOF.inactiveDOFCount witnessDOFModel) :=
  C2_buildDOFs witnessDOFModel (by
    intro bc hbc i hi
    simp [witnessDOFModel] at hi ⊢
    omega)

/-! ### Analysis drivers, from `feapack/solver/main.py`.

Global vectors live in `Fin n → ℚ` (`n` the active or inactive DOF count)
and the assembled sparse blocks are modelled as matrices, with the backend
matrix–vector product `linalg.spmatmul` (an MKL wrapper, external to the
repository) interpreted as the mathematical `Matrix.mulVec`.  The backend
direct solver `linalg.spsolve` and eigensolver `linalg.speigen` are oracle
parameters; their contracts appear as hypotheses of the theorems. -/

namespace Driver

/-- NumPy `np.max` over a one-dimensional array, modelled on the list of
entries; `none` corresponds to the error NumPy raises on an empty array. -/
def npMax {α : Type} [Max α] : List α → Option α
  | [] => none
  | x :: xs => some (xs.foldl max x)

theorem foldl_max_mem {α : Type} [LinearOrder α] (xs : List α) :
    ∀ x : α, xs.foldl max x = x ∨ xs.foldl max x ∈ xs := by
  induction xs with
  | nil => intro x; exact Or.inl rfl
  | cons y ys ih =>
      intro x
      rcases ih (max x y) with h | h
      · rcases max_choice x y with hm | hm
        · exact Or.inl (by rw [List.foldl_cons, h, hm])
        · exact Or.inr (by rw [List.foldl_cons, h, hm]; exact List.mem_cons_self y ys)
      · exact Or.inr (List.mem_cons_of_mem y h)

theorem le_foldl_max {α : Type} [LinearOrder α] (xs : List α) :
    ∀ x : α, x ≤ xs.foldl max x ∧ ∀ y ∈ xs, y ≤ xs.foldl max x := by
  induction xs with
  | nil => intro x; exact ⟨le_refl x, by simp⟩
  | cons z zs ih =>
      intro x
      obtain ⟨h1, h2⟩ := ih (max x z)
      refine ⟨le_trans (le_max_left x z) h1, ?_⟩
      intro y hy
      rcases List.mem_cons.mp hy with rfl | hy
      · exact le_trans (le_max_right x y) h1
      · exact h2 y hy

/-- The value returned by `np.max` on a nonempty array is an entry of the
array and bounds every entry. -/
theorem npMax_spec {α : Type} [LinearOrder α] (l : List α) (hl : l ≠ []) :
    ∃ r, npMax l = some r ∧ r ∈ l ∧ ∀ x ∈ l, x ≤ r := by
  cases l with
  | nil => exact absurd rfl hl
  | cons x xs =>
      refine ⟨xs.foldl max x, rfl, ?_, ?_⟩
      · rcases foldl_max_mem xs x with h | h
        · rw [h]; exact List.mem_cons_self x xs
        · exact List.mem_cons_of_mem x h
      · intro y hy
        obtain ⟨h1, h2⟩ := le_foldl_max xs x
        rcases List.mem_cons.mp hy with rfl | hy
        · exact h1
        · exact h2 y hy

/-- Inputs of `_staticAnalysis`: the four assembled stiffness blocks, the
three assembled load vectors (`assembleConcentratedLoadVector`,
`assembleSurfaceLoadVector`, `assembleBodyLoadVector`), the assembled
prescribed-displacement vector, the backend direct solver, and the assembled
internal-force vector `Fa` as a function of the displacement solution
(`assembleInternalForceVector`). -/
structure StaticInputs (na nb : ℕ) where
  Kaa : Matrix (Fin na) (Fin na) ℚ
  Kab : Matrix (Fin na) (Fin nb) ℚ
  Kba : Matrix (Fin nb) (Fin na) ℚ
  Kbb : Matrix (Fin nb) (Fin nb) ℚ
  Pc : Fin na → ℚ
  Ps : Fin na → ℚ
  Pb : Fin na → ℚ
  Ub : Fin nb → ℚ
  spsolve : Matrix (Fin na) (Fin na) ℚ → (Fin na → ℚ) → (Fin na → ℚ)
  internalForce : (Fin na → ℚ) → (Fin nb → ℚ) → (Fin na → ℚ)

/-- Results of `_staticAnalysis` (through the residual computation). -/
structure StaticResults (na nb : ℕ) where
  rhs : Fin na → ℚ
  Ua : Fin na → ℚ
  strainEnergy : ℚ
  reactions : Fin nb → ℚ
  Fa : Fin na → ℚ
  R : Option ℚ

/-- The computation of `_staticAnalysis` in `feapack/solver/main.py`:
`Pa` accumulated from a zero array, `rhs = Pa − Kab·Ub`, `Ua = spsolve(Kaa,
rhs)`, strain energy `½·Ua·rhs`, reactions `Kba·Ua + Kbb·Ub`, internal force
`Fa` at `(Ua, Ub)`, and residual `R = np.max(np.abs(rhs − Fa))`. -/
def staticAnalysis {na nb : ℕ} (s : StaticInputs na nb) : StaticResults na nb :=
  let Pa : Fin na → ℚ := (fun _ => 0) + s.Pc + s.Ps + s.Pb
  let rhs : Fin na → ℚ := Pa - s.Kab.mulVec s.Ub
  let Ua : Fin na → ℚ := s.spsolve s.Kaa rhs
  let U : ℚ := (1 / 2) * (Finset.univ.sum fun i => Ua i * rhs i)
  let reactions : Fin nb → ℚ := s.Kba.mulVec Ua + s.Kbb.mulVec s.Ub
  let Fa : Fin na → ℚ := s.internalForce Ua s.Ub
  let R : Option ℚ := npMax (List.ofFn fun i => |rhs i - Fa i|)
  ⟨rhs, Ua, U, reactions, Fa, R⟩

end Driver

/-- Claim C1.  In a static analysis, with the backend solver returning a true
solution on the assembled system (hypothesis `hsolve`) and at least one
active DOF (hypothesis `hna`, required for `np.max` not to fault): the driver
computes `rhs = Pa − Kab·Ub` with `Pa = Pc + Ps + Pb`, obtains `Ua` with
`Kaa·Ua = rhs`, computes the reactions as `Kba·Ua + Kbb·Ub`, evaluates the
internal-force vector at `(Ua, Ub)`, and reports as residual the infinity
norm of `rhs − Fa`: a value `r` that bounds every `|rhs i − Fa i|` and is
attained by one of them. -/
theorem C1_staticAnalysis {na nb : ℕ} (s : Driver.StaticInputs na nb)
    (hsolve : s.Kaa.mulVec
        (s.spsolve s.Kaa ((s.Pc + s.Ps + s.Pb) - s.Kab.mulVec s.Ub))
        = (s.Pc + s.Ps + s.Pb) - s.Kab.mulVec s.Ub)
    (hna : 0 < na) :
    (Driver.staticAnalysis s).rhs = (s.Pc + s.Ps + s.Pb) - s.Kab.mulVec s.Ub ∧
    s.Kaa.mulVec (Driver.staticAnalysis s).Ua = (Driver.staticAnalysis s).rhs ∧
    (Driver.staticAnalysis s).reactions
      = s.Kba.mulVec (Driver.staticAnalysis s).Ua + s.Kbb.mulVec s.Ub ∧
    (Driver.staticAnalysis s).Fa
      = s.internalForce (Driver.staticAnalysis s).Ua s.Ub ∧
    ∃ r, (Driver.staticAnalysis s).R = some r ∧
      (∀ i, |(Driver.staticAnalysis s).rhs i - (Driver.staticAnalysis s).Fa i| ≤ r) ∧
      (∃ i, |(Driver.staticAnalysis s).rhs i - (Driver.staticAnalysis s).Fa i| = r) := by
  have hPa : ((fun _ => (0 : ℚ)) + s.Pc + s.Ps + s.Pb) = s.Pc + s.Ps + s.Pb := by
    funext i
    simp [Pi.add_apply]
  refine ⟨?_, ?_, ?_, ?_, ?_⟩
  · show ((fun _ => (0 : ℚ)) + s.Pc + s.Ps + s.Pb) - s.Kab.mulVec s.Ub = _
    rw [hPa]
  · show s.Kaa.mulVec (s.spsolve s.Kaa
        (((fun _ => (0 : ℚ)) + s.Pc + s.Ps + s.Pb) - s.Kab.mulVec s.Ub))
      = ((fun _ => (0 : ℚ)) + s.Pc + s.Ps + s.Pb) - s.Kab.mulVec s.Ub
    rw [hPa]
    exact hsolve
  · rfl
  · rfl
  · have hl : (List.ofFn fun i =>
        |(Driver.staticAnalysis s).rhs i - (Driver.staticAnalysis s).Fa i|) ≠ [] := by
      intro h
      have := congrArg List.length h
      simp at this
      omega
    obtain ⟨r, hr1, hr2, hr3⟩ := Driver.npMax_spec _ hl
    refine ⟨r, hr1, ?_, ?_⟩
    · intro i
      exact hr3 _ ((List.mem_ofFn _ _).mpr ⟨i, rfl⟩)
    · obtain ⟨i, hi⟩ := (List.mem_ofFn _ _).mp hr2
      exact ⟨i, hi⟩

/-- Concrete static inputs witnessing the static-analysis theorem: one active
and one inactive DOF, identity stiffness, the identity as backend solver. -/
def witnessStaticInputs : Driver.StaticInputs 1 1 where
  Kaa := 1
  Kab := 0
  Kba := 0
  Kbb := 0
  Pc := fun _ => 1
  Ps := fun _ => 1
  Pb := fun _ => 1
  Ub := fun _ => 0
  spsolve := fun _ b => b
  internalForce := fun Ua _ => Ua

/-- Claim C1, witness: the static-analysis theorem instantiated at
`witnessStaticInputs`, for which the identity solver is exact. -/
theorem C1_staticAnalysis_witness :
    (Driver.staticAnalysis witnessStaticInputs).rhs
        = (witnessStaticInputs.Pc + witnessStaticInputs.Ps + witnessStaticInputs.Pb)
            - witnessStaticInputs.Kab.mulVec witnessStaticInputs.Ub ∧
    witnessStaticInputs.Kaa.mulVec (Driver.staticAnalysis witnessStaticInputs).Ua
        = (Driver.staticAnalysis witnessStaticInputs).rhs ∧
    (Driver.staticAnalysis witnessStaticInputs).reactions
        = witnessStaticInputs.Kba.mulVec (Driver.staticAnalysis witnessStaticInputs).Ua
            + witnessStaticInputs.Kbb.mulVec witnessStaticInputs.Ub ∧
    (Driver.staticAnalysis witnessStaticInputs).Fa
        = witnessStaticInputs.internalForce
            (Driver.staticAnalysis witnessStaticInputs).Ua witnessStaticInputs.Ub ∧
    ∃ r, (Driver.staticAnalysis witnessStaticInputs).R = some r ∧
      (∀ i, |(Driver.staticAnalysis witnessStaticInputs).rhs i
          - (Driver.staticAnalysis witnessStaticInputs).Fa i| ≤ r) ∧
      (∃ i, |(Driver.staticAnalysis witnessStaticInputs).rhs i
          - (Driver.staticAnalysis witnessStaticInputs).Fa i| = r) :=
  C1_staticAnalysis witnessStaticInputs
    (by
      funext i
      simp [witnessStaticInputs, Matrix.one_mulVec])
    (by omega)

namespace Driver

/-- Inputs of `_frequencyAnalysis`: the assembled active blocks of the
stiffness and mass matrices, and the raw output of the backend generalized
eigensolver `linalg.speigen(Kaa, Maa, k0, which="S")` (eigenvalues,
eigenvector columns, residuals).  Real numbers are used because the driver
takes square roots. -/
structure FreqInputs (na k : ℕ) where
  Kaa : Matrix (Fin na) (Fin na) ℝ
  Maa : Matrix (Fin na) (Fin na) ℝ
  eigenvalues : Fin k → ℝ
  eigenvectors : Fin k → Fin na → ℝ
  residuals : Fin k → ℝ

/-- The frequency computation of `_frequencyAnalysis`:
`frequencies = np.sqrt(eigenvalues)/(2π)`. -/
noncomputable def frequencies {na k : ℕ} (f : FreqInputs na k) : Fin k → ℝ :=
  fun i => Real.sqrt (f.eigenvalues i) / (2 * Real.pi)

/-- The normalization loop of `_frequencyAnalysis`: each eigenvector column
is divided by `√(φᵀ·Maa·φ)` (`spmatmul` modelled as `Matrix.mulVec`).  The
loop writes column `i` using only column `i`, so it is a per-column map. -/
noncomputable def massNormalize {na k : ℕ} (f : FreqInputs na k) : Fin k → Fin na → ℝ :=
  fun i =>
    let φi := f.eigenvectors i
    let norm := Real.sqrt (Matrix.dotProduct φi (f.Maa.mulVec φi))
    fun j => φi j / norm

end Driver

/-- Claim C3.  In a frequency analysis, for each extracted eigenpair
`(λ, φ)`, the reported frequency is `√λ/(2π)`, and — provided the raw
eigenvector has positive generalized mass `φᵀ·Maa·φ` (hypothesis `hpos`,
which holds whenever `Maa` is positive definite and `φ ≠ 0`) — the written
mode shape `φ/√(φᵀ·Maa·φ)` satisfies `ψᵀ·Maa·ψ = 1`. -/
theorem C3_frequencyAnalysis {na k : ℕ} (f : Driver.FreqInputs na k) (i : Fin k)
    (hpos : 0 < Matrix.dotProduct (f.eigenvectors i) (f.Maa.mulVec (f.eigenvectors i))) :
    Driver.frequencies f i = Real.sqrt (f.eigenvalues i) / (2 * Real.pi) ∧
    Matrix.dotProduct (Driver.massNormalize f i) (f.Maa.mulVec (Driver.massNormalize f i)) = 1 := by
  refine ⟨rfl, ?_⟩
  set φi := f.eigenvectors i with hφ
  set q : ℝ := Matrix.dotProduct φi (f.Maa.mulVec φi) with hq
  have hψ : Driver.massNormalize f i = (Real.sqrt q)⁻¹ • φi := by
    funext j
    simp [Driver.massNormalize, div_eq_inv_mul, ← hφ, ← hq]
  rw [hψ, Matrix.mulVec_smul, Matrix.dotProduct_smul, Matrix.smul_dotProduct]
  have hsq : Real.sqrt q * Real.sqrt q = q := Real.mul_self_sqrt hpos.le
  have hqne : q ≠ 0 := ne_of_gt hpos
  have hsqne : Real.sqrt q ≠ 0 := by
    intro h
    rw [h, mul_zero] at hsq
    exact hqne hsq.symm
  rw [smul_eq_mul, smul_eq_mul, ← hq]
  field_simp

/-- Concrete frequency inputs witnessing the frequency theorem: one DOF,
identity mass matrix, a single eigenpair with eigenvector `(2)`. -/
noncomputable def witnessFreqInputs : Driver.FreqInputs 1 1 where
  Kaa := 1
  Maa := 1
  eigenvalues := fun _ => 4
  eigenvectors := fun _ _ => 2
  residuals := fun _ => 0

/-- Claim C3, witness: the frequency theorem instantiated at
`witnessFreqInputs`, whose eigenvector has generalized mass `4 > 0`. -/
theorem C3_frequencyAnalysis_witness :
    Driver.frequencies witnessFreqInputs 0
        = Real.sqrt (witnessFreqInputs.eigenvalues 0) / (2 * Real.pi) ∧
    Matrix.dotProduct (Driver.massNormalize witnessFreqInputs 0)
        (witnessFreqInputs.Maa.mulVec (Driver.massNormalize witnessFreqInputs 0)) = 1 :=
  C3_frequencyAnalysis witnessFreqInputs 0
    (by
      have : Matrix.dotProduct (witnessFreqInputs.eigenvectors 0)
          (witnessFreqInputs.Maa.mulVec (witnessFreqInputs.eigenvectors 0)) = 4 := by
        simp [witnessFreqInputs, Matrix.one_mulVec, Matrix.dotProduct]
        norm_num
      rw [this]
      norm_num)

namespace Driver

/-- The per-element data read by the buckling pipeline of
`feapack/solver/procedures.py`: element type and section flag (for the
quadrature rule), node and DOF counts, nodal coordinates
(`coordinateMatrix`), and the four DOF lists assigned by `_buildDOFs`. -/
structure Element where
  type : ElementTypes
  reducedIntegration : Bool
  nodeCount : ℕ
  dofCount : ℕ
  coords : List (ℚ × ℚ × ℚ)
  activeLocalDOFs : List ℕ
  activeGlobalDOFs : List ℕ
  inactiveLocalDOFs : List ℕ
  inactiveGlobalDOFs : List ℕ

/-- NumPy fancy-assignment `dst[locals] = src[globals]`, as a fold of
pointwise updates over the zipped index lists. -/
def scatter (pairs : List (ℕ × ℕ)) (src : ℕ → ℚ) (dst : ℕ → ℚ) : ℕ → ℚ :=
  pairs.foldl (fun d p => Function.update d p.1 (src p.2)) dst

/-- The element nodal displacement vector, from `displacementVector` in
`feapack/solver/procedures.py`: a zero array of size `dofCount` with
`U[activeLocalDOFs] = Ua[activeGlobalDOFs]` and
`U[inactiveLocalDOFs] = Ub[inactiveGlobalDOFs]`. -/
def displacementVector (e : Element) (Ua Ub : ℕ → ℚ) : ℕ → ℚ :=
  scatter (e.inactiveLocalDOFs.zip e.inactiveGlobalDOFs) Ub
    (scatter (e.activeLocalDOFs.zip e.activeGlobalDOFs) Ua (fun _ => 0))

/-- The element nodal displacement matrix, from `displacementMatrix`:
`matU[i, j] = vecU[i·count + j]` for `i < nodeCount` and `j < count` with
`count = dofCount / nodeCount`, zero elsewhere. -/
def displacementMatrix (e : Element) (vecU : ℕ → ℚ) : ℕ → ℕ → ℚ :=
  fun i j =>
    if i < e.nodeCount ∧ j < e.dofCount / e.nodeCount then
      vecU (i * (e.dofCount / e.nodeCount) + j)
    else 0

/-- The matrix of element nodal coordinates, from `coordinateMatrix`. -/
def coordinateMatrix (e : Element) : ℕ → ℕ → ℚ :=
  fun i j =>
    match e.coords.get? i with
    | some c => if j = 0 then c.1 else if j = 1 then c.2.1 else if j = 2 then c.2.2 else 0
    | none => 0

/-- The per-integration-point integrand of `stressStiffnessMatrix`: given the
element, the (already shifted) coordinate matrix `X`, the element
displacement vector, and one quadrature row, it stands for the source lines
computing `evaluateElement`, `B`, `ε = B·u`, `σ = D·ε`, `G`, `Σ` and
returning `Gᵀ·Σ·G·vol`.  It is kept abstract here: the claim under check
concerns the coordinates at which it is evaluated, not its numeric value. -/
abbrev GaussKernel : Type :=
  Element → (ℕ → ℕ → ℚ) → (ℕ → ℚ) → QuadRow → (ℕ → ℕ → ℚ)

/-- Spec-side reading of the Gauss loop of `stressStiffnessMatrix`: the sum
of the integrand over the element quadrature rule, at a given coordinate
matrix `X`. -/
def stressStiffnessAtCoords (kernel : GaussKernel) (e : Element)
    (X : ℕ → ℕ → ℚ) (vecU : ℕ → ℚ) : ℕ → ℕ → ℚ :=
  (integrationPoints e.type e.reducedIntegration).foldl
    (fun S row => fun i j => S i j + kernel e X vecU row i j) (fun _ _ => 0)

/-- The element stress-stiffness matrix, from `stressStiffnessMatrix` in
`feapack/solver/procedures.py`: the coordinate matrix is shifted by the
element nodal displacements (`X += matU`, the updated-Lagrange approach)
before the Gauss loop runs. -/
def stressStiffnessMatrix (kernel : GaussKernel) (e : Element)
    (Ua Ub : ℕ → ℚ) : ℕ → ℕ → ℚ :=
  let vecU := displacementVector e Ua Ub
  let X := fun i j => coordinateMatrix e i j + displacementMatrix e vecU i j
  (integrationPoints e.type e.reducedIntegration).foldl
    (fun S row => fun i j => S i j + kernel e X vecU row i j) (fun _ _ => 0)

/-- Reading a NumPy global vector of length `n` at an arbitrary index:
valid indices give the entry, others are junk (the source only ever uses
valid indices on a validated model). -/
def liftVec {n : ℕ} (v : Fin n → ℚ) : ℕ → ℚ :=
  fun i => if h : i < n then v ⟨i, h⟩ else 0

/-- Inputs of `_bucklingAnalysis`: the blocks and load vectors of the static
pre-solve, the backend direct solver, the mesh elements with the abstract
Gauss-point integrand, the active-block assembler (`assembleMatrix`, first
component), and the backend generalized eigensolver
`linalg.speigen(Saa, Kaa, k0, which="S")`. -/
structure BucklingInputs (na nb k : ℕ) where
  Kaa : Matrix (Fin na) (Fin na) ℚ
  Kab : Matrix (Fin na) (Fin nb) ℚ
  Pc : Fin na → ℚ
  Ps : Fin na → ℚ
  Pb : Fin na → ℚ
  Ub : Fin nb → ℚ
  spsolve : Matrix (Fin na) (Fin na) ℚ → (Fin na → ℚ) → (Fin na → ℚ)
  elements : List Element
  kernel : GaussKernel
  assembleActiveBlock : List (ℕ → ℕ → ℚ) → Matrix (Fin na) (Fin na) ℚ
  speigen : Matrix (Fin na) (Fin na) ℚ → Matrix (Fin na) (Fin na) ℚ →
    (Fin k → ℚ) × (Fin k → Fin na → ℚ) × (Fin k → ℚ)

/-- Results of `_bucklingAnalysis`. -/
structure BucklingResults (na nb k : ℕ) where
  rhs : Fin na → ℚ
  Ua : Fin na → ℚ
  Saa : Matrix (Fin na) (Fin na) ℚ
  rawEigenvalues : Fin k → ℚ
  rawEigenvectors : Fin k → Fin na → ℚ
  residuals : Fin k → ℚ
  eigenvalues : Fin k → ℚ
  eigenvectors : Fin k → Fin na → ℚ

/-- The computation of `_bucklingAnalysis` in `feapack/solver/main.py`:
static pre-solve, stress-stiffness assembly at the pre-stressed
configuration, generalized eigensolve on `(Saa, Kaa)`, sign-inverted
eigenvalues `−1/μ`, and infinity-norm eigenvector normalization. -/
def bucklingAnalysis {na nb k : ℕ} (s : BucklingInputs na nb k) :
    BucklingResults na nb k :=
  let Pa : Fin na → ℚ := (fun _ => 0) + s.Pc + s.Ps + s.Pb
  let rhs : Fin na → ℚ := Pa - s.Kab.mulVec s.Ub
  let Ua : Fin na → ℚ := s.spsolve s.Kaa rhs
  let Saa : Matrix (Fin na) (Fin na) ℚ := s.assembleActiveBlock
    (s.elements.map fun e => stressStiffnessMatrix s.kernel e (liftVec Ua) (liftVec s.Ub))
  let out := s.speigen Saa s.Kaa
  let eigenvalues : Fin k → ℚ := fun i => -1 / out.1 i
  let eigenvectors : Fin k → Fin na → ℚ := fun i =>
    let φi := out.2.1 i
    let norm : ℚ := (npMax (List.ofFn fun j => |φi j|)).getD 0
    fun j => φi j / norm
  ⟨rhs, Ua, Saa, out.1, out.2.1, out.2.2, eigenvalues, eigenvectors⟩

end Driver

/-- Claim C4.  In a buckling analysis, with the backend solver exact on the
static pre-solve (hypothesis `hsolve`) and the backend eigensolver returning
true generalized eigenpairs of `(Saa, Kaa)` (hypothesis `heig`): the static
pre-solve displacements satisfy `Kaa·Ua = Pa − Kab·Ub`; the matrix handed to
the eigensolver is the stress-stiffness block assembled from per-element
Gauss sums evaluated at the coordinates shifted by those displacements; each
eigenpair satisfies `Saa·φ = μ·Kaa·φ` and is reported as the critical load
factor `−1/μ`; and every written mode shape whose raw eigenvector is nonzero
has all components of absolute value at most 1, with at least one component
of absolute value exactly 1. -/
theorem C4_bucklingAnalysis {na nb k : ℕ} (s : Driver.BucklingInputs na nb k)
    (hsolve : s.Kaa.mulVec
        (s.spsolve s.Kaa ((s.Pc + s.Ps + s.Pb) - s.Kab.mulVec s.Ub))
        = (s.Pc + s.Ps + s.Pb) - s.Kab.mulVec s.Ub)
    (heig : ∀ i : Fin k,
      (Driver.bucklingAnalysis s).Saa.mulVec ((Driver.bucklingAnalysis s).rawEigenvectors i)
        = (Driver.bucklingAnalysis s).rawEigenvalues i •
            s.Kaa.mulVec ((Driver.bucklingAnalysis s).rawEigenvectors i)) :
    s.Kaa.mulVec (Driver.bucklingAnalysis s).Ua
        = (s.Pc + s.Ps + s.Pb) - s.Kab.mulVec s.Ub ∧
    (Driver.bucklingAnalysis s).Saa = s.assembleActiveBlock
      (s.elements.map fun e =>
        Driver.stressStiffnessAtCoords s.kernel e
          (fun i j => Driver.coordinateMatrix e i j +
            Driver.displacementMatrix e
              (Driver.displacementVector e
                (Driver.liftVec (Driver.bucklingAnalysis s).Ua)
                (Driver.liftVec s.Ub)) i j)
          (Driver.displacementVector e
            (Driver.liftVec (Driver.bucklingAnalysis s).Ua)
            (Driver.liftVec s.Ub))) ∧
    (∀ i : Fin k,
      (Driver.bucklingAnalysis s).Saa.mulVec ((Driver.bucklingAnalysis s).rawEigenvectors i)
        = (Driver.bucklingAnalysis s).rawEigenvalues i •
            s.Kaa.mulVec ((Driver.bucklingAnalysis s).rawEigenvectors i) ∧
      (Driver.bucklingAnalysis s).eigenvalues i
        = -1 / (Driver.bucklingAnalysis s).rawEigenvalues i) ∧
    (∀ i : Fin k, (∃ j, (Driver.bucklingAnalysis s).rawEigenvectors i j ≠ 0) →
      (∀ j, |(Driver.bucklingAnalysis s).eigenvectors i j| ≤ 1) ∧
      (∃ j, |(Driver.bucklingAnalysis s).eigenvectors i j| = 1)) := by
  have hPa : ((fun _ => (0 : ℚ)) + s.Pc + s.Ps + s.Pb) = s.Pc + s.Ps + s.Pb := by
    funext i
    simp [Pi.add_apply]
  refine ⟨?_, rfl, fun i => ⟨heig i, rfl⟩, ?_⟩
  · show s.Kaa.mulVec (s.spsolve s.Kaa
        (((fun _ => (0 : ℚ)) + s.Pc + s.Ps + s.Pb) - s.Kab.mulVec s.Ub))
      = _
    rw [hPa]
    exact hsolve
  · intro i hi
    obtain ⟨j0, hj0⟩ := hi
    set φ : Fin na → ℚ := (Driver.bucklingAnalysis s).rawEigenvectors i with hφdef
    have hl : (List.ofFn fun j => |φ j|) ≠ [] := by
      intro h
      have hlen := congrArg List.length h
      simp at hlen
      have := j0.2
      omega
    obtain ⟨m, hm1, hm2, hm3⟩ := Driver.npMax_spec (List.ofFn fun j => |φ j|) hl
    have hmpos : 0 < m := by
      have h1 : |φ j0| ≤ m := hm3 _ ((List.mem_ofFn _ _).mpr ⟨j0, rfl⟩)
      have h2 : 0 < |φ j0| := abs_pos.mpr hj0
      exact lt_of_lt_of_le h2 h1
    have hnorm : ∀ j, (Driver.bucklingAnalysis s).eigenvectors i j = φ j / m := by
      intro j
      show φ j / (Driver.npMax (List.ofFn fun j => |φ j|)).getD 0 = φ j / m
      rw [hm1]
      rfl
    constructor
    · intro j
      rw [hnorm j, abs_div, abs_of_pos hmpos]
      exact (div_le_one hmpos).mpr (hm3 _ ((List.mem_ofFn _ _).mpr ⟨j, rfl⟩))
    · obtain ⟨j1, hj1⟩ := (List.mem_ofFn _ _).mp hm2
      have hj1' : |φ j1| = m := hj1
      refine ⟨j1, ?_⟩
      rw [hnorm j1, abs_div, abs_of_pos hmpos, hj1']
      exact div_self (ne_of_gt hmpos)

/-- Concrete buckling inputs witnessing the buckling theorem: one active
DOF, identity stiffness, no elements, identity solver and an eigensolver
stub returning the eigenpair `(1, (2))`. -/
def witnessBucklingInputs : Driver.BucklingInputs 1 1 1 where
  Kaa := 1
  Kab := 0
  Pc := fun _ => 1
  Ps := fun _ => 1
  Pb := fun _ => 1
  Ub := fun _ => 0
  spsolve := fun _ b => b
  elements := []
  kernel := fun _ _ _ _ => fun _ _ => 0
  assembleActiveBlock := fun _ => 1
  speigen := fun _ _ => (fun _ => 1, fun _ _ => 2, fun _ => 0)

/-- Claim C4, witness: the buckling theorem instantiated at
`witnessBucklingInputs`, whose oracles are exact on this instance. -/
theorem C4_bucklingAnalysis_witness :
    witnessBucklingInputs.Kaa.mulVec (Driver.bucklingAnalysis witnessBucklingInputs).Ua
        = (witnessBucklingInputs.Pc + witnessBucklingInputs.Ps + witnessBucklingInputs.Pb)
            - witnessBucklingInputs.Kab.mulVec witnessBucklingInputs.Ub ∧
    (Driver.bucklingAnalysis witnessBucklingInputs).Saa
      = witnessBucklingInputs.assembleActiveBlock
        (witnessBucklingInputs.elements.map fun e =>
          Driver.stressStiffnessAtCoords witnessBucklingInputs.kernel e
            (fun i j => Driver.coordinateMatrix e i j +
              Driver.displacementMatrix e
                (Driver.displacementVector e
                  (Driver.liftVec (Driver.bucklingAnalysis witnessBucklingInputs).Ua)
                  (Driver.liftVec witnessBucklingInputs.Ub)) i j)
            (Driver.displacementVector e
              (Driver.liftVec (Driver.bucklingAnalysis witnessBucklingInputs).Ua)
              (Driver.liftVec witnessBucklingInputs.Ub))) ∧
    (∀ i : Fin 1,
      (Driver.bucklingAnalysis witnessBucklingInputs).Saa.mulVec
          ((Driver.bucklingAnalysis witnessBucklingInputs).rawEigenvectors i)
        = (Driver.bucklingAnalysis witnessBucklingInputs).rawEigenvalues i •
            witnessBucklingInputs.Kaa.mulVec
              ((Driver.bucklingAnalysis witnessBucklingInputs).rawEigenvectors i) ∧
      (Driver.bucklingAnalysis witnessBucklingInputs).eigenvalues i
        = -1 / (Driver.bucklingAnalysis witnessBucklingInputs).rawEigenvalues i) ∧
    (∀ i : Fin 1,
      (∃ j, (Driver.bucklingAnalysis witnessBucklingInputs).rawEigenvectors i j ≠ 0) →
      (∀ j, |(Driver.bucklingAnalysis witnessBucklingInputs).eigenvectors i j| ≤ 1) ∧
      (∃ j, |(Driver.bucklingAnalysis witnessBucklingInputs).eigenvectors i j| = 1)) :=
  C4_bucklingAnalysis witnessBucklingInputs
    (by
      funext i
      simp [witnessBucklingInputs, Matrix.one_mulVec])
    (by
      intro i
      show (1 : Matrix (Fin 1) (Fin 1) ℚ).mulVec (fun _ => 2)
          = (1 : ℚ) • (1 : Matrix (Fin 1) (Fin 1) ℚ).mulVec (fun _ => 2)
      rw [one_smul])

/-- Claim C9.  Frame navigation: `goToFrame(i)` raises iff `i < 0` or
`i ≥ frameCount` (returning no new state, so the current frame is
unchanged), and on success moves the current frame to `i` without touching
anything else; `goToPreviousFrame` on the first frame and `goToNextFrame`
on the last frame return silently with the state unchanged, and otherwise
move the current frame by exactly one; `goToFirstFrame` and
`goToLastFrame` set the current frame to `0` and `frameCount − 1`. -/
theorem C9_frameNavigation (o : ODBM.ODB) :
    (∀ i : ℤ,
      (o.goToFrame i = none ↔ i < 0 ∨ (o.frameCount : ℤ) ≤ i) ∧
      (∀ o', o.goToFrame i = some o' →
        o'.currentFrame = i ∧ o'.frameCount = o.frameCount ∧ o'.file = o.file)) ∧
    (o.currentFrame = 0 → o.goToPreviousFrame = o) ∧
    (o.currentFrame ≠ 0 →
      (o.goToPreviousFrame).currentFrame = o.currentFrame - 1) ∧
    (o.currentFrame = (o.frameCount : ℤ) - 1 → o.goToNextFrame = o) ∧
    (o.currentFrame ≠ (o.frameCount : ℤ) - 1 →
      (o.goToNextFrame).currentFrame = o.currentFrame + 1) ∧
    (o.goToFirstFrame).currentFrame = 0 ∧
    (o.goToLastFrame).currentFrame = (o.frameCount : ℤ) - 1 := by
  refine ⟨?_, ?_, ?_, ?_, ?_, rfl, rfl⟩
  · intro i
    constructor
    · unfold ODBM.ODB.goToFrame
      by_cases h : i < 0 ∨ i ≥ (o.frameCount : ℤ)
      · simp [h]
      · simp [h]
    · intro o' h
      unfold ODBM.ODB.goToFrame at h
      by_cases hr : i < 0 ∨ i ≥ (o.frameCount : ℤ)
      · rw [if_pos hr] at h
        exact absurd h (by simp)
      · rw [if_neg hr] at h
        have := Option.some.inj h
        rw [← this]
        exact ⟨rfl, rfl, rfl⟩
  · intro h
    unfold ODBM.ODB.goToPreviousFrame
    rw [if_pos h]
  · intro h
    unfold ODBM.ODB.goToPreviousFrame
    rw [if_neg h]
  · intro h
    unfold ODBM.ODB.goToNextFrame
    rw [if_pos h]
  · intro h
    unfold ODBM.ODB.goToNextFrame
    rw [if_neg h]

/-- Claim C10.  Opening an existing ODB file in write mode with
`replace=False` keeps the file's contents but resets the object's counters
to `frameCount = 0`, `currentFrame = −1`; the next `writeNextFrame`
therefore appends a block whose recorded frame-index line is the encoding
of `0`, regardless of the frames already present in the file. -/
theorem C10_openWrite_appends_frame_zero (f : List ODBM.Line) (c : ODBM.Codec)
    (fr : ODBM.FrameData) :
    (ODBM.ODB.openWrite (some f) false).file = f ∧
    (ODBM.ODB.openWrite (some f) false).frameCount = 0 ∧
    (ODBM.ODB.openWrite (some f) false).currentFrame = -1 ∧
    (ODBM.ODB.writeNextFrame c (ODBM.ODB.openWrite (some f) false) fr).file
      = f ++ ODBM.frameLines c 0 fr ∧
    ((ODBM.ODB.writeNextFrame c (ODBM.ODB.openWrite (some f) false) fr).file.get?
        (f.length + 1)) = some (c.fmtI 0) ∧
    (ODBM.ODB.writeNextFrame c (ODBM.ODB.openWrite (some f) false) fr).frameCount
      = 1 ∧
    (ODBM.ODB.writeNextFrame c (ODBM.ODB.openWrite (some f) false) fr).currentFrame
      = 0 := by
  refine ⟨rfl, rfl, rfl, ?_, ?_, rfl, ?_⟩
  · show f ++ ODBM.frameLines c (-1 + 1) fr = f ++ ODBM.frameLines c 0 fr
    norm_num
  · show (f ++ ODBM.frameLines c (-1 + 1) fr).get? (f.length + 1) = some (c.fmtI 0)
    rw [show (-1 + 1 : ℤ) = 0 by norm_num]
    rw [List.get?_eq_getElem?, List.getElem?_append_right (by omega)]
    simp [ODBM.frameLines]
  · show (-1 + 1 : ℤ) = 0
    norm_num

/-- Claim C6, counterexample.  The claim states that the quadrature rule
depends on the reduced-integration flag only for Line2, Plane4, Plane8,
Volume8 and Volume20, so in particular Line3 should give identical rules for
both flag settings.  In the source, Line3 has a 3-point full rule and a
2-point reduced rule, so the rules differ. -/
theorem C6_counterexample :
    integrationPoints ElementTypes.Line3 true ≠ integrationPoints ElementTypes.Line3 false := by
  intro h
  have hlen := congrArg List.length h
  simp [integrationPoints] at hlen

/-- Claim C6, amended.  The quadrature rule returned by `integrationPoints`
depends on the section's reduced-integration flag exactly for the element
types Line2, Line3, Plane4, Plane8, Volume8 and Volume20; for each of the six
remaining element types the rule is identical for both flag settings. -/
theorem C6_amended :
    integrationPoints ElementTypes.Plane3 true = integrationPoints ElementTypes.Plane3 false ∧
    integrationPoints ElementTypes.Plane6 true = integrationPoints ElementTypes.Plane6 false ∧
    integrationPoints ElementTypes.Volume4 true = integrationPoints ElementTypes.Volume4 false ∧
    integrationPoints ElementTypes.Volume6 true = integrationPoints ElementTypes.Volume6 false ∧
    integrationPoints ElementTypes.Volume10 true = integrationPoints ElementTypes.Volume10 false ∧
    integrationPoints ElementTypes.Volume15 true = integrationPoints ElementTypes.Volume15 false ∧
    integrationPoints ElementTypes.Line2 true ≠ integrationPoints ElementTypes.Line2 false ∧
    integrationPoints ElementTypes.Line3 true ≠ integrationPoints ElementTypes.Line3 false ∧
    integrationPoints ElementTypes.Plane4 true ≠ integrationPoints ElementTypes.Plane4 false ∧
    integrationPoints ElementTypes.Plane8 true ≠ integrationPoints ElementTypes.Plane8 false ∧
    integrationPoints ElementTypes.Volume8 true ≠ integrationPoints ElementTypes.Volume8 false ∧
    integrationPoints ElementTypes.Volume20 true ≠ integrationPoints ElementTypes.Volume20 false := by
  refine ⟨rfl, rfl, rfl, rfl, rfl, rfl, ?_, ?_, ?_, ?_, ?_, ?_⟩ <;>
    · intro h
      have hlen := congrArg List.length h
      simp [integrationPoints] at hlen

/-- Claim C7, counterexample.  The claim states that for every element type
and both flag settings the number of integration points is at least the
extrapolation-basis dimension.  Plane6 has 3 integration points but a
bilinear basis of dimension 4. -/
theorem C7_counterexample :
    ¬ extrapolationBasisSize (extrapolationApproach ElementTypes.Plane6 false) ≤
        (integrationPoints ElementTypes.Plane6 false).length := by
  decide

/-- Claim C7, amended.  For every element type other than Plane6 and Volume10
and for both settings of the reduced-integration flag, the number of
integration points returned by `integrationPoints` is at least the dimension
of the extrapolation basis selected by `extrapolationApproach`.  (Plane6 has
3 points for a basis of dimension 4, and Volume10 has 4 points for a basis of
dimension 8.) -/
theorem C7_amended (t : ElementTypes) (reduced : Bool)
    (h6 : t ≠ ElementTypes.Plane6) (h10 : t ≠ ElementTypes.Volume10) :
    extrapolationBasisSize (extrapolationApproach t reduced) ≤
      (integrationPoints t reduced).length := by
  cases t <;> cases reduced <;>
    first
      | exact absurd rfl h6
      | exact absurd rfl h10
      | decide

/-- Claim C7, witness: the amended bound instantiated at a reduced-integration
Plane4 element. -/
theorem C7_witness :
    extrapolationBasisSize (extrapolationApproach ElementTypes.Plane4 true) ≤
      (integrationPoints ElementTypes.Plane4 true).length :=
  C7_amended ElementTypes.Plane4 true (by decide) (by decide)

/-- Claim C5, counterexample.  The claim states that every model in which at
least one material has strictly positive density passes the density check.
With one material of density 1 and another of density 0, the source still
reports the density error. -/
theorem C5_counterexample :
    checkFrequencyAnalysisDensityErrors
        [⟨1, 0, 1⟩, ⟨1, 0, 0⟩] ≠ [] ∧
    ∃ m ∈ ([⟨1, 0, 1⟩, ⟨1, 0, 0⟩] : List Material), 0 < m.density := by
  constructor
  · simp [checkFrequencyAnalysisDensityErrors]
  · exact ⟨⟨1, 0, 1⟩, by simp, by norm_num⟩

/-- Claim C5, amended.  For a frequency analysis, the validator reports the
mass-density error iff at least one material has density exactly zero; a
model passes the density check iff every material has nonzero density. -/
theorem C5_amended (materials : List Material) :
    checkFrequencyAnalysisDensityErrors materials ≠ [] ↔
      ∃ m ∈ materials, m.density = 0 := by
  by_cases h : materials.any (fun m => m.density = 0)
  · simp only [checkFrequencyAnalysisDensityErrors, if_pos h]
    simpa [List.any_eq_true] using h
  · simp only [checkFrequencyAnalysisDensityErrors, if_neg h]
    simp only [List.any_eq_true, decide_eq_true_eq] at h
    simpa using h

/-- **C8 (amended).** Writing a nonempty list of frames whose descriptions
and titles are clean (stripped, not starting with `$`, newline-free), whose
node-output arrays have one value per mesh node and whose element
connectivities are nonempty, and re-opening the file in read mode, recovers
everything: the frame count equals the number of frames written, and after
`goToFrame(j)` the read operations return the written description, nodal
coordinates, element types with connectivity, node-output titles and
values, and global-output titles and values.  The number formatting is
abstracted by a codec whose round-trip contract (`CodecOK`) models the
exact Python `str`/`float` round trip, which subsumes the specification's
12-significant-digit guarantee.  The original claim (every ODB round-trips
exactly) fails because the readers strip the stored text: see the
counterexample with a description carrying leading whitespace. -/
theorem C8_roundTrip (c : ODBM.Codec) (hc : ODBM.CodecOK c)
    (frs : List ODBM.FrameData) (hne : frs ≠ [])
    (hcl : ∀ fr ∈ frs, ODBM.FrameClean fr) :
    ∃ o : ODBM.ODB,
      ODBM.ODB.openRead c
          (ODBM.writeFrames c (ODBM.ODB.openWrite none true) frs).file = some o ∧
      o.frameCount = frs.length ∧
      ∀ (j : ℕ) (hj : j < frs.length), ∃ oj : ODBM.ODB,
        o.goToFrame (j : ℤ) = some oj ∧
        oj.getDescription = some (frs.get ⟨j, hj⟩).description ∧
        oj.getNodes c = some (frs.get ⟨j, hj⟩).mesh.nodes ∧
        oj.getElements c
          = some ((frs.get ⟨j, hj⟩).mesh.elements.map
              (fun e => (e.1, e.2.map (fun n => (n : ℤ))))) ∧
        oj.getNodeOutputTitles c
          = some ((frs.get ⟨j, hj⟩).nodeOutput.map (fun x => x.1)) ∧
        (∀ x ∈ (frs.get ⟨j, hj⟩).nodeOutput,
          oj.getNodeOutputValues c x.1 = some x.2) ∧
        oj.getGlobalOutputTitles c
          = some ((frs.get ⟨j, hj⟩).globalOutput.map (fun x => x.1)) ∧
        (∀ x ∈ (frs.get ⟨j, hj⟩).globalOutput,
          oj.getGlobalOutputValues c x.1 = some x.2) := by
  refine ⟨_, ODBM.openRead_writeFrames c hc frs hne hcl, rfl, ?_⟩
  intro j hj
  have hclean : ODBM.FrameClean (frs.get ⟨j, hj⟩) :=
    hcl _ (frs.get_mem j hj)
  refine ⟨⟨ODBM.blocksFrom c 0 frs, frs.length, (j : ℤ),
    ODBM.multiOverlay c frs (fun _ _ => none) 0 0⟩, ?_, ?_⟩
  · rw [ODBM.ODB.goToFrame, if_neg (by simp; omega)]
  · have hfile : (⟨ODBM.blocksFrom c 0 frs, frs.length, (j : ℤ),
        ODBM.multiOverlay c frs (fun _ _ => none) 0 0⟩ : ODBM.ODB).file
        = ODBM.blocksFrom c 0 (frs.take j)
          ++ (ODBM.frameLines c (j : ℤ) (frs.get ⟨j, hj⟩)
            ++ ODBM.blocksFrom c (j + 1) (frs.drop (j + 1))) :=
      ODBM.blocksFrom_decompose c frs j hj
    have hcur : (⟨ODBM.blocksFrom c 0 frs, frs.length, (j : ℤ),
        ODBM.multiOverlay c frs (fun _ _ => none) 0 0⟩ : ODBM.ODB).currentFrame.toNat
        = j := by simp
    have hptr : ∀ key ∈ ODBM.frameKeys,
        (⟨ODBM.blocksFrom c 0 frs, frs.length, (j : ℤ),
          ODBM.multiOverlay c frs (fun _ _ => none) 0 0⟩ : ODBM.ODB).pointers j key
        = ODBM.frameDict c j (ODBM.blocksFrom c 0 (frs.take j)).length
            (frs.get ⟨j, hj⟩) key := by
      intro key hkey
      have := ODBM.multiOverlay_get c frs j 0 0 (fun _ _ => none) hj key hkey
      simpa using this
    exact ⟨ODBM.read_desc c _ _ hclean _ _ _ _ _ hfile rfl hcur hptr,
      ODBM.read_nodes c hc _ _ _ _ _ _ _ hfile rfl hcur hptr,
      ODBM.read_elems c hc _ _ hclean _ _ _ _ _ hfile rfl hcur hptr,
      ODBM.read_ntitles c hc _ _ hclean _ _ _ _ _ hfile rfl hcur hptr,
      fun x hx => ODBM.read_nvalues c hc _ _ hclean _ _ _ _ _ hfile rfl hcur hptr x hx,
      ODBM.read_gtitles c hc _ _ hclean _ _ _ _ _ hfile rfl hcur hptr,
      fun x hx => ODBM.read_gvalues c hc _ _ hclean _ _ _ _ _ hfile rfl hcur hptr x hx⟩

/-- A concrete codec for witnesses: integers are stored in unary with a
sign marker (`I` for nonnegative, `J` for negative) and rationals as
numerator, `D`, unary denominator.  It satisfies the exact round-trip
contract used to model Python's number formatting. -/
def unaryFmtI (z : ℤ) : ODBM.Line :=
  if z < 0 then 'J' :: List.replicate (-z).toNat 'I'
  else 'I' :: List.replicate z.toNat 'I'

def unaryParseI (l : ODBM.Line) : Option ℤ :=
  match l with
  | [] => none
  | ch :: rest =>
      if ch = 'I' then some (rest.length : ℤ)
      else if ch = 'J' then some (-(rest.length : ℤ))
      else none

def unaryFmtQ (q : ℚ) : ODBM.Line :=
  unaryFmtI q.num ++ 'D' :: List.replicate q.den 'I'

def unaryParseQ (l : ODBM.Line) : Option ℚ :=
  match unaryParseI (l.takeWhile (fun ch => ch ≠ 'D')) with
  | none => none
  | some n => some (mkRat n ((l.dropWhile (fun ch => ch ≠ 'D')).drop 1).length)

def unaryCodec : ODBM.Codec := ⟨unaryFmtQ, unaryParseQ, unaryFmtI, unaryParseI⟩

theorem unaryFmtI_chars (z : ℤ) : ∀ ch ∈ unaryFmtI z, ch = 'I' ∨ ch = 'J' := by
  intro ch hch
  unfold unaryFmtI at hch
  split at hch <;>
    rcases List.mem_cons.mp hch with rfl | hch
  · exact Or.inr rfl
  · exact Or.inl (List.eq_of_mem_replicate hch)
  · exact Or.inl rfl
  · exact Or.inl (List.eq_of_mem_replicate hch)

theorem unaryFmtI_plain (z : ℤ) : ODBM.plainToken (unaryFmtI z) := by
  constructor
  · unfold unaryFmtI
    split <;> simp
  · intro ch hch
    rcases unaryFmtI_chars z ch hch with rfl | rfl <;> exact ⟨by decide, by decide, by decide⟩

theorem unaryParseI_fmtI (z : ℤ) : unaryParseI (unaryFmtI z) = some z := by
  unfold unaryFmtI unaryParseI
  by_cases hz : z < 0
  · rw [if_pos hz]
    have hne : ¬ ('J' = 'I') := by decide
    simp [hne]
    omega
  · rw [if_neg hz]
    simp
    omega

theorem unaryFmtQ_plain (q : ℚ) : ODBM.plainToken (unaryFmtQ q) := by
  constructor
  · unfold unaryFmtQ unaryFmtI
    split <;> simp
  · intro ch hch
    unfold unaryFmtQ at hch
    rcases List.mem_append.mp hch with hch | hch
    · rcases unaryFmtI_chars q.num ch hch with rfl | rfl <;>
        exact ⟨by decide, by decide, by decide⟩
    · rcases List.mem_cons.mp hch with rfl | hch
      · exact ⟨by decide, by decide, by decide⟩
      · rw [List.eq_of_mem_replicate hch]
        exact ⟨by decide, by decide, by decide⟩

theorem unaryParseQ_fmtQ (q : ℚ) : unaryParseQ (unaryFmtQ q) = some q := by
  have hnoD : ∀ ch ∈ unaryFmtI q.num, ch ≠ 'D' := by
    intro ch hch
    rcases unaryFmtI_chars q.num ch hch with rfl | rfl <;> decide
  unfold unaryParseQ unaryFmtQ
  rw [ODBM.takeWhile_append_stop 'D' _ _ hnoD,
    ODBM.dropWhile_append_stop 'D' _ _ hnoD, unaryParseI_fmtI q.num]
  simp [Rat.mkRat_self]

theorem unaryCodec_ok : ODBM.CodecOK unaryCodec :=
  ⟨unaryFmtQ_plain, unaryParseQ_fmtQ, unaryFmtI_plain, unaryParseI_fmtI⟩

/-- A frame whose description carries leading whitespace: legal input for
`writeNextFrame` (the description is written verbatim), but `getDescription`
strips the read-back line. -/
def dirtyFrame : ODBM.FrameData := ⟨[' ', 'x'], ⟨[], []⟩, [], []⟩

/-- **C8 (counterexample).** The round trip claimed for every ODB fails:
writing a frame whose description is `" x"` (leading space) and reading it
back returns `"x"`, because `getDescription` applies `strip()` to the
stored line.  The written file is produced by the embedded writer and read
back through the embedded `__init__`/`goToFrame`/`getDescription` chain
with the concrete verified unary codec. -/
theorem C8_counterexample :
    ODBM.CodecOK unaryCodec ∧
    ((ODBM.ODB.openRead unaryCodec
        (ODBM.writeFrames unaryCodec (ODBM.ODB.openWrite none true)
          [dirtyFrame]).file).bind
      (fun o => (o.goToFrame 0).bind (fun o0 => o0.getDescription)))
      = some ['x'] ∧
    dirtyFrame.description ≠ ['x'] :=
  ⟨unaryCodec_ok, by decide, by decide⟩

/-- A clean one-frame input for the round-trip witness. -/
def wFrame : ODBM.FrameData :=
  ⟨['x'], ⟨[(1, 2, 3)], [(ElementTypes.Line2, [0, 1])]⟩, [(['u'], [5])], [(['g'], 7)]⟩

theorem C8_roundTrip_witness :
    ODBM.CodecOK unaryCodec ∧
    (([wFrame] : List ODBM.FrameData) ≠ []) ∧
    (∀ fr ∈ [wFrame], ODBM.FrameClean fr) ∧
    (∃ o : ODBM.ODB,
      ODBM.ODB.openRead unaryCodec
          (ODBM.writeFrames unaryCodec (ODBM.ODB.openWrite none true)
            [wFrame]).file = some o ∧
      o.frameCount = [wFrame].length ∧
      ∀ (j : ℕ) (hj : j < [wFrame].length), ∃ oj : ODBM.ODB,
        o.goToFrame (j : ℤ) = some oj ∧
        oj.getDescription = some ([wFrame].get ⟨j, hj⟩).description ∧
        oj.getNodes unaryCodec = some ([wFrame].get ⟨j, hj⟩).mesh.nodes ∧
        oj.getElements unaryCodec
          = some (([wFrame].get ⟨j, hj⟩).mesh.elements.map
              (fun e => (e.1, e.2.map (fun n => (n : ℤ))))) ∧
        oj.getNodeOutputTitles unaryCodec
          = some (([wFrame].get ⟨j, hj⟩).nodeOutput.map (fun x => x.1)) ∧
        (∀ x ∈ ([wFrame].get ⟨j, hj⟩).nodeOutput,
          oj.getNodeOutputValues unaryCodec x.1 = some x.2) ∧
        oj.getGlobalOutputTitles unaryCodec
          = some (([wFrame].get ⟨j, hj⟩).globalOutput.map (fun x => x.1)) ∧
        (∀ x ∈ ([wFrame].get ⟨j, hj⟩).globalOutput,
          oj.getGlobalOutputValues unaryCodec x.1 = some x.2)) := by
  have hclw : ∀ fr ∈ [wFrame], ODBM.FrameClean fr := by
    intro fr hfr
    rw [List.mem_singleton.mp hfr]
    refine ⟨⟨by decide, by decide, by decide⟩, ?_, ?_, by decide, by decide, ?_⟩
    · intro x hx
      rw [List.mem_singleton.mp hx]
      exact ⟨⟨by decide, by decide, by decide⟩, by decide⟩
    · intro x hx
      rw [List.mem_singleton.mp hx]
      exact ⟨by decide, by decide, by decide⟩
    · intro e he
      rw [List.mem_singleton.mp he]
      decide
  exact ⟨unaryCodec_ok, List.cons_ne_nil wFrame [], hclw,
    C8_roundTrip unaryCodec unaryCodec_ok [wFrame]
      (List.cons_ne_nil wFrame []) hclw⟩

end FEAPACK
